import Mathlib

/-!
# Load tester: the concurrent dispatch and aggregation engine of `main.go`

The Go program starts `concurrency` worker goroutines that share four int64
cells (`requestCounter`, `totalDuration`, `minDuration`, `maxDuration`), one
buffered channel `resultChan` and one collector goroutine that owns
`statusDistribution` and `successCount`.

The embedding is an interleaving semantics.  Every atomic operation of the
source (`atomic.AddInt64`, `atomic.LoadInt64`, `atomic.CompareAndSwapInt64`,
a channel send, a channel receive, `close`) is one transition of `step`; the
scheduler and the network are the two sources of nondeterminism and both are
made explicit in the `Event` that labels a transition, so that `exec` is a
computable function of the schedule.  Machine integers are `Int` with an
explicit two's complement wrap (`wrap64`) wherever the source does int64
arithmetic.
-/

namespace LoadTest

/-! ## Machine integers -/

/-- Largest int64, the value of `1<<63 - 1` on line 56. -/
def maxInt64 : Int := 9223372036854775807

/-- Smallest int64. -/
def minInt64 : Int := -9223372036854775808

/-- Two's complement wrap of an integer into the int64 range: the result of any
Go int64 addition is `wrap64` of the mathematical result. -/
def wrap64 (x : Int) : Int :=
  (x + 9223372036854775808) % 18446744073709551616 - 9223372036854775808

/-- Go integer division of int64 values: a run-time panic (here `none`) on a zero
divisor, truncation toward zero otherwise. -/
def goDiv (a b : Int) : Option Int :=
  if b = 0 then none else some (wrap64 (Int.tdiv a b))

/-! ## Data model -/

/-- The struct `LoadTestResult` of lines 12-16.  `Timestamp` is written with
`time.Now()` and never read, it is left out. -/
structure LoadTestResult where
  StatusCode : Int
  Duration : Int
  deriving DecidableEq, Repr

/-- The struct `Report` of lines 18-26; durations are int64 nanoseconds, the Go
`map[int]int64` is an association list. -/
structure Report where
  TotalRequests : Int
  TotalTime : Int
  SuccessRequests : Int
  StatusDistribution : List (Int × Int)
  MinDuration : Int
  MaxDuration : Int
  AvgDuration : Int
  deriving DecidableEq, Repr

/-- Reading `m[key]` of a Go map: the zero value when the key is absent. -/
def mapGet : List (Int × Int) → Int → Int
  | [], _ => 0
  | (k, v) :: m, key => if k = key then v else mapGet m key

/-- The statement `m[key]++` on a `map[int]int64` (line 133). -/
def mapIncr : List (Int × Int) → Int → List (Int × Int)
  | [], key => [(key, wrap64 (0 + 1))]
  | (k, v) :: m, key =>
    if k = key then (k, wrap64 (v + 1)) :: m else (k, v) :: mapIncr m key

/-- Sum of the values of a status map. -/
def mapSum (m : List (Int × Int)) : Int := (m.map Prod.snd).sum

/-- Control point of one worker goroutine inside the loop of lines 66-116. -/
inductive Pc where
  /-- About to run `atomic.AddInt64(&requestCounter, 1)` and the test of line 68. -/
  | claim
  /-- Ticket accepted, `client.Get(url)` of line 73 is in flight. -/
  | get
  /-- About to send the result on `resultChan` (line 77 or line 84). -/
  | send (code dur : Int)
  /-- About to run `atomic.AddInt64(&totalDuration, durNano)` (line 93). -/
  | addTotal (dur : Int)
  /-- About to load `minDuration` and compare (lines 96-97). -/
  | loadMin (dur : Int)
  /-- About to run the compare-and-swap of line 98 with the loaded `currentMin`. -/
  | casMin (dur cur : Int)
  /-- About to load `maxDuration` and compare (lines 107-108). -/
  | loadMax (dur : Int)
  /-- About to run the compare-and-swap of line 109 with the loaded `currentMax`. -/
  | casMax (dur cur : Int)
  /-- Left the loop through the `break` of line 69; `wg.Done()` has run. -/
  | done
  deriving DecidableEq, Repr

/-- The shared state of one call of `performLoadTest`.  The last two fields are
history variables: they are written and never read by a transition. -/
structure State where
  requestCounter : Int
  totalDuration : Int
  minDuration : Int
  maxDuration : Int
  successCount : Int
  statusDistribution : List (Int × Int)
  /-- Buffered contents of `resultChan`, oldest first. -/
  resultChan : List LoadTestResult
  /-- Whether `close(resultChan)` of line 142 has run. -/
  closed : Bool
  /-- Whether the collector goroutine has left its `range` loop (`resultWg.Done`). -/
  collectorDone : Bool
  workers : List Pc
  /-- History: every value returned by `atomic.AddInt64(&requestCounter, 1)`, in order. -/
  claimLog : List Int
  /-- History: the outcome of every completed `client.Get`, in order of completion. -/
  outcomes : List LoadTestResult
  deriving DecidableEq, Repr

/-- One atomic transition of the system. -/
inductive Event where
  /-- Worker `i` runs its next atomic operation. -/
  | work (i : Nat)
  /-- The GET of worker `i` completes: `resp = none` is `err != nil`, `some code` is
  a response with that status; `dur` is `time.Since(start)` in nanoseconds. -/
  | respond (i : Nat) (resp : Option Int) (dur : Int)
  /-- The collector receives one result from `resultChan` (lines 132-137). -/
  | collect
  /-- The main goroutine returns from `wg.Wait()` and closes the channel (lines 141-142). -/
  | close
  /-- The collector finds the channel closed and empty and leaves the loop. -/
  | collectorExit
  deriving DecidableEq, Repr

/-- Status recorded for a completed GET (lines 76-89): 0 on a transport error. -/
def statusOf : Option Int → Int
  | none => 0
  | some code => code

/-- State at the start of the worker goroutines (lines 51-57 and 126-127). -/
def init (concurrency : Nat) : State :=
  { requestCounter := 0
    totalDuration := 0
    minDuration := maxInt64
    maxDuration := 0
    successCount := 0
    statusDistribution := []
    resultChan := []
    closed := false
    collectorDone := false
    workers := List.replicate concurrency Pc.claim
    claimLog := []
    outcomes := [] }

/-- Next atomic operation of worker `i`. -/
def stepWorker (totalRequests : Int) (concurrency : Nat) (s : State) (i : Nat) : Option State :=
  match s.workers[i]? with
  | none => none
  | some Pc.claim =>
    let current := wrap64 (s.requestCounter + 1)
    if current > totalRequests then
      some { s with requestCounter := current, claimLog := s.claimLog ++ [current],
                    workers := s.workers.set i Pc.done }
    else
      some { s with requestCounter := current, claimLog := s.claimLog ++ [current],
                    workers := s.workers.set i Pc.get }
  | some Pc.get => none
  | some (Pc.send code dur) =>
    if s.resultChan.length < concurrency then
      some { s with resultChan := s.resultChan ++ [⟨code, dur⟩],
                    workers := s.workers.set i (Pc.addTotal dur) }
    else none
  | some (Pc.addTotal dur) =>
    some { s with totalDuration := wrap64 (s.totalDuration + dur),
                  workers := s.workers.set i (Pc.loadMin dur) }
  | some (Pc.loadMin dur) =>
    if dur < s.minDuration then
      some { s with workers := s.workers.set i (Pc.casMin dur s.minDuration) }
    else
      some { s with workers := s.workers.set i (Pc.loadMax dur) }
  | some (Pc.casMin dur cur) =>
    if s.minDuration = cur then
      some { s with minDuration := dur, workers := s.workers.set i (Pc.loadMax dur) }
    else
      some { s with workers := s.workers.set i (Pc.loadMin dur) }
  | some (Pc.loadMax dur) =>
    if dur > s.maxDuration then
      some { s with workers := s.workers.set i (Pc.casMax dur s.maxDuration) }
    else
      some { s with workers := s.workers.set i Pc.claim }
  | some (Pc.casMax dur cur) =>
    if s.maxDuration = cur then
      some { s with maxDuration := dur, workers := s.workers.set i Pc.claim }
    else
      some { s with workers := s.workers.set i (Pc.loadMax dur) }
  | some Pc.done => none

/-- One transition; `none` when the event is not enabled in the state. -/
def step (totalRequests : Int) (concurrency : Nat) (s : State) : Event → Option State
  | Event.work i => stepWorker totalRequests concurrency s i
  | Event.respond i resp dur =>
    match s.workers[i]? with
    | some Pc.get =>
      if minInt64 ≤ dur ∧ dur ≤ maxInt64 then
        some { s with workers := s.workers.set i (Pc.send (statusOf resp) dur),
                      outcomes := s.outcomes ++ [⟨statusOf resp, dur⟩] }
      else none
    | _ => none
  | Event.collect =>
    if s.collectorDone then none
    else match s.resultChan with
      | [] => none
      | r :: rest =>
        some { s with statusDistribution := mapIncr s.statusDistribution r.StatusCode,
                      successCount :=
                        if r.StatusCode = 200 then wrap64 (s.successCount + 1) else s.successCount,
                      resultChan := rest }
  | Event.close =>
    if s.closed = false ∧ s.workers.all (fun p => decide (p = Pc.done)) then
      some { s with closed := true }
    else none
  | Event.collectorExit =>
    if s.closed ∧ s.collectorDone = false ∧ s.resultChan.isEmpty then
      some { s with collectorDone := true }
    else none

/-- Run a schedule from a state. -/
def exec (totalRequests : Int) (concurrency : Nat) : State → List Event → Option State
  | s, [] => some s
  | s, e :: es =>
    match step totalRequests concurrency s e with
    | none => none
    | some s1 => exec totalRequests concurrency s1 es

/-- Lines 146-149: the request count of the report, the counter clamped to `totalRequests`. -/
def finalCount (totalRequests : Int) (s : State) : Int :=
  if s.requestCounter > totalRequests then totalRequests else s.requestCounter

/-- Lines 145-164: the report read from the shared state once `resultWg.Wait()` has
returned; `none` is the division panic. -/
def buildReport (totalRequests : Int) (s : State) (totalTime : Int) : Option Report :=
  let avg :=
    if finalCount totalRequests s > 0 then goDiv s.totalDuration (finalCount totalRequests s)
    else some 0
  match avg with
  | none => none
  | some avgDuration =>
    some { TotalRequests := finalCount totalRequests s
           TotalTime := totalTime
           SuccessRequests := s.successCount
           StatusDistribution := s.statusDistribution
           MinDuration := s.minDuration
           MaxDuration := s.maxDuration
           AvgDuration := avgDuration }

/-- The function `performLoadTest` under a given schedule of its goroutines and of
the network: the report if the schedule carries the run to the return of line 156,
`none` if the schedule is not a complete run. -/
def performLoadTest (totalRequests : Int) (concurrency : Nat) (sched : List Event)
    (totalTime : Int) : Option Report :=
  match exec totalRequests concurrency (init concurrency) sched with
  | none => none
  | some s => if s.collectorDone then buildReport totalRequests s totalTime else none

/-- What `main` (lines 28-47) does with its three parsed flags. -/
inductive MainOutcome where
  /-- Lines 35-37: the usage message, then return. -/
  | usageError
  /-- Line 45: `performLoadTest` is called with these arguments. -/
  | loadTest (url : String) (totalRequests : Int) (concurrency : Int)
  deriving DecidableEq, Repr

/-- The guard of line 34. -/
def main (url : String) (requests : Int) (concurrency : Int) : MainOutcome :=
  if url = "" ∨ requests = 0 ∨ concurrency = 0 then MainOutcome.usageError
  else MainOutcome.loadTest url requests concurrency

/-! ## Sample runs -/

/-- One worker, two requests: a 200 after 5 ns, then a transport error after 7 ns. -/
def twoRequestRun : List Event :=
  [Event.work 0, Event.respond 0 (some 200) 5, Event.work 0, Event.collect, Event.work 0,
   Event.work 0, Event.work 0, Event.work 0, Event.work 0,
   Event.work 0, Event.respond 0 none 7, Event.work 0, Event.work 0, Event.work 0,
   Event.work 0, Event.work 0, Event.work 0,
   Event.close, Event.collect, Event.collectorExit]

/-- The state in which `twoRequestRun` returns. -/
def twoRequestEnd : State :=
  { requestCounter := 3
    totalDuration := 12
    minDuration := 5
    maxDuration := 7
    successCount := 1
    statusDistribution := [(200, 1), (0, 1)]
    resultChan := []
    closed := true
    collectorDone := true
    workers := [Pc.done]
    claimLog := [1, 2, 3]
    outcomes := [⟨200, 5⟩, ⟨0, 7⟩] }

/-- The report of `twoRequestRun` after 100 ns of wall-clock time. -/
def twoRequestReport : Report :=
  { TotalRequests := 2
    TotalTime := 100
    SuccessRequests := 1
    StatusDistribution := [(200, 1), (0, 1)]
    MinDuration := 5
    MaxDuration := 7
    AvgDuration := 6 }

/-- Two workers, one request: worker 0 executes it in 4 ns, worker 1 is rejected at once. -/
def twoWorkerRun : List Event :=
  [Event.work 0, Event.work 1, Event.respond 0 (some 200) 4, Event.work 0, Event.work 0,
   Event.work 0, Event.work 0, Event.work 0, Event.work 0, Event.work 0,
   Event.close, Event.collect, Event.collectorExit]

/-- The state of `twoWorkerRun` after its first two transitions: worker 0 holds ticket 1
with its GET in flight, worker 1 has been rejected with the value 2. -/
def twoWorkerMid : State :=
  { requestCounter := 2
    totalDuration := 0
    minDuration := maxInt64
    maxDuration := 0
    successCount := 0
    statusDistribution := []
    resultChan := []
    closed := false
    collectorDone := false
    workers := [Pc.get, Pc.done]
    claimLog := [1, 2]
    outcomes := [] }

/-- The state in which `twoWorkerRun` returns. -/
def twoWorkerEnd : State :=
  { requestCounter := 3
    totalDuration := 4
    minDuration := 4
    maxDuration := 4
    successCount := 1
    statusDistribution := [(200, 1)]
    resultChan := []
    closed := true
    collectorDone := true
    workers := [Pc.done, Pc.done]
    claimLog := [1, 2, 3]
    outcomes := [⟨200, 4⟩] }

/-- Two workers and a negative request count: both workers are rejected at once. -/
def idleRun : List Event :=
  [Event.work 0, Event.work 1, Event.close, Event.collectorExit]

/-- The state in which `idleRun` returns. -/
def idleEnd : State :=
  { requestCounter := 2
    totalDuration := 0
    minDuration := maxInt64
    maxDuration := 0
    successCount := 0
    statusDistribution := []
    resultChan := []
    closed := true
    collectorDone := true
    workers := [Pc.done, Pc.done]
    claimLog := [1, 2]
    outcomes := [] }

/-- One worker and no request. -/
def emptyRun : List Event :=
  [Event.work 0, Event.close, Event.collectorExit]

/-- The state in which `emptyRun` returns. -/
def emptyEnd : State :=
  { requestCounter := 1
    totalDuration := 0
    minDuration := maxInt64
    maxDuration := 0
    successCount := 0
    statusDistribution := []
    resultChan := []
    closed := true
    collectorDone := true
    workers := [Pc.done]
    claimLog := [1]
    outcomes := [] }

/-- One worker, two requests of `2^62` ns each: their sum does not fit in an int64. -/
def overflowRun : List Event :=
  [Event.work 0, Event.respond 0 (some 200) 4611686018427387904, Event.work 0,
   Event.collect, Event.work 0, Event.work 0, Event.work 0, Event.work 0, Event.work 0,
   Event.work 0, Event.respond 0 (some 200) 4611686018427387904, Event.work 0,
   Event.collect, Event.work 0, Event.work 0, Event.work 0, Event.work 0, Event.close,
   Event.collectorExit]

/-- The state in which `overflowRun` returns. -/
def overflowEnd : State :=
  { requestCounter := 3
    totalDuration := -9223372036854775808
    minDuration := 4611686018427387904
    maxDuration := 4611686018427387904
    successCount := 2
    statusDistribution := [(200, 2)]
    resultChan := []
    closed := true
    collectorDone := true
    workers := [Pc.done]
    claimLog := [1, 2, 3]
    outcomes := [⟨200, 4611686018427387904⟩, ⟨200, 4611686018427387904⟩] }

/-- The report of `overflowRun`. -/
def overflowReport : Report :=
  { TotalRequests := 2
    TotalTime := 100
    SuccessRequests := 2
    StatusDistribution := [(200, 2)]
    MinDuration := 4611686018427387904
    MaxDuration := 4611686018427387904
    AvgDuration := -4611686018427387904 }

/-- One worker, five requests of 10 ns answered 200, 200, 200, 500, 500. -/
def fiveRequestRun : List Event :=
  [Event.work 0, Event.respond 0 (some 200) 10, Event.work 0, Event.collect, Event.work 0,
   Event.work 0, Event.work 0, Event.work 0, Event.work 0, Event.work 0,
   Event.respond 0 (some 200) 10, Event.work 0, Event.collect, Event.work 0, Event.work 0,
   Event.work 0, Event.work 0, Event.respond 0 (some 200) 10, Event.work 0, Event.collect,
   Event.work 0, Event.work 0, Event.work 0, Event.work 0, Event.respond 0 (some 500) 10,
   Event.work 0, Event.collect, Event.work 0, Event.work 0, Event.work 0, Event.work 0,
   Event.respond 0 (some 500) 10, Event.work 0, Event.collect, Event.work 0, Event.work 0,
   Event.work 0, Event.work 0, Event.close, Event.collectorExit]

/-- The state in which `fiveRequestRun` returns. -/
def fiveRequestEnd : State :=
  { requestCounter := 6
    totalDuration := 50
    minDuration := 10
    maxDuration := 10
    successCount := 3
    statusDistribution := [(200, 3), (500, 2)]
    resultChan := []
    closed := true
    collectorDone := true
    workers := [Pc.done]
    claimLog := [1, 2, 3, 4, 5, 6]
    outcomes := [⟨200, 10⟩, ⟨200, 10⟩, ⟨200, 10⟩, ⟨500, 10⟩, ⟨500, 10⟩] }

/-- The report of `fiveRequestRun`. -/
def fiveRequestReport : Report :=
  { TotalRequests := 5
    TotalTime := 100
    SuccessRequests := 3
    StatusDistribution := [(200, 3), (500, 2)]
    MinDuration := 10
    MaxDuration := 10
    AvgDuration := 10 }

/-- Two workers, two requests (5 ns and 3 ns) with both compare-and-swap loops
contended: each worker loads the same extreme, one swap succeeds, the other fails and
is retried. -/
def contendedRun : List Event :=
  [Event.work 0, Event.work 1, Event.respond 0 (some 200) 5, Event.respond 1 none 3,
   Event.work 0, Event.work 1, Event.work 0, Event.work 1,
   Event.work 0, Event.work 1, Event.work 0, Event.work 1, Event.work 1, Event.work 1,
   Event.work 1, Event.work 0, Event.work 1, Event.work 0, Event.work 0, Event.work 0,
   Event.work 0, Event.work 1, Event.close, Event.collect, Event.collect,
   Event.collectorExit]

/-- The state in which `contendedRun` returns. -/
def contendedEnd : State :=
  { requestCounter := 4
    totalDuration := 8
    minDuration := 3
    maxDuration := 5
    successCount := 1
    statusDistribution := [(200, 1), (0, 1)]
    resultChan := []
    closed := true
    collectorDone := true
    workers := [Pc.done, Pc.done]
    claimLog := [1, 2, 3, 4]
    outcomes := [⟨200, 5⟩, ⟨0, 3⟩] }

/-- The report of `contendedRun`. -/
def contendedReport : Report :=
  { TotalRequests := 2
    TotalTime := 100
    SuccessRequests := 1
    StatusDistribution := [(200, 1), (0, 1)]
    MinDuration := 3
    MaxDuration := 5
    AvgDuration := 4 }

/-! ## The transition relation, one constructor per branch of the source -/

/-- The transitions of `step` as a relation: each constructor is one branch of the
worker loop, of the collector loop or of the main goroutine. -/
inductive Step (totalRequests : Int) (concurrency : Nat) (s : State) : State → Prop where
  | claimReject (i : Nat) (hpc : s.workers[i]? = some Pc.claim)
      (hgt : wrap64 (s.requestCounter + 1) > totalRequests) :
      Step totalRequests concurrency s
        { s with requestCounter := wrap64 (s.requestCounter + 1),
                 claimLog := s.claimLog ++ [wrap64 (s.requestCounter + 1)],
                 workers := s.workers.set i Pc.done }
  | claimAccept (i : Nat) (hpc : s.workers[i]? = some Pc.claim)
      (hle : ¬ wrap64 (s.requestCounter + 1) > totalRequests) :
      Step totalRequests concurrency s
        { s with requestCounter := wrap64 (s.requestCounter + 1),
                 claimLog := s.claimLog ++ [wrap64 (s.requestCounter + 1)],
                 workers := s.workers.set i Pc.get }
  | respond (i : Nat) (resp : Option Int) (dur : Int) (hpc : s.workers[i]? = some Pc.get)
      (hdur : minInt64 ≤ dur ∧ dur ≤ maxInt64) :
      Step totalRequests concurrency s
        { s with workers := s.workers.set i (Pc.send (statusOf resp) dur),
                 outcomes := s.outcomes ++ [⟨statusOf resp, dur⟩] }
  | send (i : Nat) (code dur : Int) (hpc : s.workers[i]? = some (Pc.send code dur))
      (hroom : s.resultChan.length < concurrency) :
      Step totalRequests concurrency s
        { s with resultChan := s.resultChan ++ [⟨code, dur⟩],
                 workers := s.workers.set i (Pc.addTotal dur) }
  | addTotal (i : Nat) (dur : Int) (hpc : s.workers[i]? = some (Pc.addTotal dur)) :
      Step totalRequests concurrency s
        { s with totalDuration := wrap64 (s.totalDuration + dur),
                 workers := s.workers.set i (Pc.loadMin dur) }
  | loadMinLt (i : Nat) (dur : Int) (hpc : s.workers[i]? = some (Pc.loadMin dur))
      (hlt : dur < s.minDuration) :
      Step totalRequests concurrency s
        { s with workers := s.workers.set i (Pc.casMin dur s.minDuration) }
  | loadMinGe (i : Nat) (dur : Int) (hpc : s.workers[i]? = some (Pc.loadMin dur))
      (hge : ¬ dur < s.minDuration) :
      Step totalRequests concurrency s
        { s with workers := s.workers.set i (Pc.loadMax dur) }
  | casMinOk (i : Nat) (dur cur : Int) (hpc : s.workers[i]? = some (Pc.casMin dur cur))
      (heq : s.minDuration = cur) :
      Step totalRequests concurrency s
        { s with minDuration := dur, workers := s.workers.set i (Pc.loadMax dur) }
  | casMinFail (i : Nat) (dur cur : Int) (hpc : s.workers[i]? = some (Pc.casMin dur cur))
      (hne : ¬ s.minDuration = cur) :
      Step totalRequests concurrency s
        { s with workers := s.workers.set i (Pc.loadMin dur) }
  | loadMaxGt (i : Nat) (dur : Int) (hpc : s.workers[i]? = some (Pc.loadMax dur))
      (hgt : dur > s.maxDuration) :
      Step totalRequests concurrency s
        { s with workers := s.workers.set i (Pc.casMax dur s.maxDuration) }
  | loadMaxLe (i : Nat) (dur : Int) (hpc : s.workers[i]? = some (Pc.loadMax dur))
      (hle : ¬ dur > s.maxDuration) :
      Step totalRequests concurrency s
        { s with workers := s.workers.set i Pc.claim }
  | casMaxOk (i : Nat) (dur cur : Int) (hpc : s.workers[i]? = some (Pc.casMax dur cur))
      (heq : s.maxDuration = cur) :
      Step totalRequests concurrency s
        { s with maxDuration := dur, workers := s.workers.set i Pc.claim }
  | casMaxFail (i : Nat) (dur cur : Int) (hpc : s.workers[i]? = some (Pc.casMax dur cur))
      (hne : ¬ s.maxDuration = cur) :
      Step totalRequests concurrency s
        { s with workers := s.workers.set i (Pc.loadMax dur) }
  | collect (r : LoadTestResult) (rest : List LoadTestResult)
      (hrun : s.collectorDone = false) (hchan : s.resultChan = r :: rest) :
      Step totalRequests concurrency s
        { s with statusDistribution := mapIncr s.statusDistribution r.StatusCode,
                 successCount :=
                   if r.StatusCode = 200 then wrap64 (s.successCount + 1) else s.successCount,
                 resultChan := rest }
  | close (hopen : s.closed = false) (hall : ∀ p ∈ s.workers, p = Pc.done) :
      Step totalRequests concurrency s { s with closed := true }
  | collectorExit (hclosed : s.closed = true) (hrun : s.collectorDone = false)
      (hempty : s.resultChan = []) :
      Step totalRequests concurrency s { s with collectorDone := true }

/-- A state reached from the initial one by some schedule. -/
def Reachable (totalRequests : Int) (concurrency : Nat) (s : State) : Prop :=
  ∃ sched, exec totalRequests concurrency (init concurrency) sched = some s

/-- The counter cannot wrap: `totalRequests + concurrency` and `concurrency` fit in int64. -/
def Fits (totalRequests : Int) (concurrency : Nat) : Prop :=
  totalRequests + concurrency ≤ maxInt64 ∧ (concurrency : Int) ≤ maxInt64

/-! ## Observations on a state -/

/-- Sum of an integer weight over the workers. -/
def wsum (f : Pc → Int) (l : List Pc) : Int := (l.map f).sum

/-- Indicator of a worker that has left the loop. -/
def isDone : Pc → Int
  | Pc.done => 1
  | _ => 0

/-- Indicator of a worker whose GET is in flight. -/
def isGet : Pc → Int
  | Pc.get => 1
  | _ => 0

/-- Indicator of a worker that holds an outcome not yet sent. -/
def isSend : Pc → Int
  | Pc.send _ _ => 1
  | _ => 0

/-- Indicator of a worker that holds an unsent outcome with status `k`. -/
def isSendOf (k : Int) : Pc → Int
  | Pc.send c _ => if c = k then 1 else 0
  | _ => 0

/-- Duration a worker has measured and not yet added to `totalDuration`. -/
def pendingDur : Pc → Int
  | Pc.send _ d => d
  | Pc.addTotal d => d
  | _ => 0

/-- Whether a worker still has to finish the minimum loop for duration `d`. -/
def beforeMin (d : Int) : Pc → Prop
  | Pc.send _ e => e = d
  | Pc.addTotal e => e = d
  | Pc.loadMin e => e = d
  | Pc.casMin e _ => e = d
  | _ => False

/-- Whether a worker still has to finish the maximum loop for duration `d`. -/
def beforeMax (d : Int) : Pc → Prop
  | Pc.send _ e => e = d
  | Pc.addTotal e => e = d
  | Pc.loadMin e => e = d
  | Pc.casMin e _ => e = d
  | Pc.loadMax e => e = d
  | Pc.casMax e _ => e = d
  | _ => False

/-- The duration a worker is carrying, if any. -/
def carried : Pc → Option Int
  | Pc.send _ e => some e
  | Pc.addTotal e => some e
  | Pc.loadMin e => some e
  | Pc.casMin e _ => some e
  | Pc.loadMax e => some e
  | Pc.casMax e _ => some e
  | _ => none

/-- Number of results with status `k`. -/
def countStatus (k : Int) (l : List LoadTestResult) : Int :=
  (l.map (fun r => if r.StatusCode = k then (1 : Int) else 0)).sum

/-- Sum of the durations of a list of results. -/
def sumDur (l : List LoadTestResult) : Int := (l.map (fun r => r.Duration)).sum

/-- The durations of a list of results. -/
def durations (l : List LoadTestResult) : List Int := l.map (fun r => r.Duration)

/-- The tickets `1, 2, ..., c`. -/
def tickets (c : Int) : List Int :=
  (List.range c.toNat).map (fun (j : Nat) => (j : Int) + 1)

/-- The claimed values that passed the test of line 68, in claim order. -/
def accepted (totalRequests : Int) (s : State) : List Int :=
  s.claimLog.filter (fun t => decide (t ≤ totalRequests))

/-- Every worker has left its loop. -/
def AllDone (s : State) : Prop := ∀ p ∈ s.workers, p = Pc.done

/-- Cost, in remaining transitions, of a worker at its control point; a compare-and-swap
that is bound to fail costs more than the load it falls back to. -/
def weight (concurrency : Nat) (mn mx : Int) : Pc → Int
  | Pc.done => 0
  | Pc.claim => 1
  | Pc.loadMax _ => 2 * concurrency + 3
  | Pc.casMax _ cur => if cur = mx then 2 * concurrency + 2 else 2 * concurrency + 4
  | Pc.loadMin _ => 4 * concurrency + 5
  | Pc.casMin _ cur => if cur = mn then 4 * concurrency + 4 else 4 * concurrency + 6
  | Pc.addTotal _ => 4 * concurrency + 6
  | Pc.send _ _ => 4 * concurrency + 8
  | Pc.get => 4 * concurrency + 9

/-- Upper bound on the number of transitions a run can still take. -/
def measure (totalRequests : Int) (concurrency : Nat) (s : State) : Int :=
  max 0 (max totalRequests 0 - s.requestCounter) * (4 * concurrency + 9)
    + wsum (weight concurrency s.minDuration s.maxDuration) s.workers
    + s.resultChan.length
    + (if s.closed then 0 else 1)
    + (if s.collectorDone then 0 else 1)

/-! ## Invariants -/

/-- Shape of the run: the pool size is fixed, the channel is closed only after every
worker has left its loop, the collector leaves only a closed and drained channel. -/
structure ShapeInv (concurrency : Nat) (s : State) : Prop where
  len : s.workers.length = concurrency
  closedDone : s.closed = true → AllDone s
  exitDrained : s.collectorDone = true → s.closed = true ∧ s.resultChan = []

/-- Aggregation invariants that hold with or without wrap-around. -/
structure AggInv (s : State) : Prop where
  success : s.successCount = mapGet s.statusDistribution 200
  perStatus : ∀ k, mapGet s.statusDistribution k =
    wrap64 (countStatus k s.outcomes - countStatus k s.resultChan - wsum (isSendOf k) s.workers)
  total : s.totalDuration = wrap64 (sumDur s.outcomes - wsum pendingDur s.workers)
  inRange : ∀ r ∈ s.outcomes, minInt64 ≤ r.Duration ∧ r.Duration ≤ maxInt64

/-- A worker about to compare-and-swap carries a duration beyond the value it loaded. -/
def CasOk : Pc → Prop
  | Pc.casMin d cur => d < cur
  | Pc.casMax d cur => cur < d
  | _ => True

/-- Invariants of the two compare-and-swap loops. -/
structure ExtremeInv (s : State) : Prop where
  carriedSeen : ∀ p ∈ s.workers, ∀ d, carried p = some d → d ∈ durations s.outcomes
  casOk : ∀ p ∈ s.workers, CasOk p
  minSeen : s.minDuration = maxInt64 ∨ s.minDuration ∈ durations s.outcomes
  maxSeen : s.maxDuration = 0 ∨ s.maxDuration ∈ durations s.outcomes
  minLow : ∀ d ∈ durations s.outcomes, s.minDuration ≤ d ∨ ∃ p ∈ s.workers, beforeMin d p
  maxHigh : ∀ d ∈ durations s.outcomes, d ≤ s.maxDuration ∨ ∃ p ∈ s.workers, beforeMax d p

/-- Invariants of the work counter, valid as long as it cannot wrap. -/
structure CounterInv (totalRequests : Int) (s : State) : Prop where
  nonneg : 0 ≤ s.requestCounter
  doneCount : wsum isDone s.workers = max 0 (s.requestCounter - max totalRequests 0)
  log : s.claimLog = tickets s.requestCounter
  inFlight : (s.outcomes.length : Int) + wsum isGet s.workers
    = min s.requestCounter (max totalRequests 0)
  delivered : mapSum s.statusDistribution + s.resultChan.length + wsum isSend s.workers
    = s.outcomes.length
  counts : ∀ kv ∈ s.statusDistribution, 1 ≤ kv.2

/-! ## Basic facts -/

theorem wrap64_of_fits (x : Int) (h1 : minInt64 ≤ x) (h2 : x ≤ maxInt64) : wrap64 x = x := by
  unfold wrap64; unfold minInt64 at h1; unfold maxInt64 at h2; omega

theorem wrap64_add_wrap64 (a b : Int) : wrap64 (wrap64 a + b) = wrap64 (a + b) := by
  unfold wrap64; omega

theorem wrap64_range (x : Int) : minInt64 ≤ wrap64 x ∧ wrap64 x ≤ maxInt64 := by
  unfold wrap64 minInt64 maxInt64; omega

theorem step_sound {N : Int} {C : Nat} {s s1 : State} {e : Event}
    (h : step N C s e = some s1) : Step N C s s1 := by
  cases e with
  | work i =>
    simp only [step, stepWorker] at h
    split at h
    · exact absurd h (by simp)
    · split at h <;> (injection h with h; subst h)
      · exact Step.claimReject i ‹_› ‹_›
      · exact Step.claimAccept i ‹_› ‹_›
    · exact absurd h (by simp)
    · split at h
      · injection h with h; subst h; exact Step.send i _ _ ‹_› ‹_›
      · exact absurd h (by simp)
    · injection h with h; subst h; exact Step.addTotal i _ ‹_›
    · split at h <;> (injection h with h; subst h)
      · exact Step.loadMinLt i _ ‹_› ‹_›
      · exact Step.loadMinGe i _ ‹_› ‹_›
    · split at h <;> (injection h with h; subst h)
      · exact Step.casMinOk i _ _ ‹_› ‹_›
      · exact Step.casMinFail i _ _ ‹_› ‹_›
    · split at h <;> (injection h with h; subst h)
      · exact Step.loadMaxGt i _ ‹_› ‹_›
      · exact Step.loadMaxLe i _ ‹_› ‹_›
    · split at h <;> (injection h with h; subst h)
      · exact Step.casMaxOk i _ _ ‹_› ‹_›
      · exact Step.casMaxFail i _ _ ‹_› ‹_›
    · exact absurd h (by simp)
  | respond i resp dur =>
    simp only [step] at h
    split at h
    · split at h
      · injection h with h; subst h; exact Step.respond i resp dur ‹_› ‹_›
      · exact absurd h (by simp)
    · exact absurd h (by simp)
  | collect =>
    simp only [step] at h
    split at h
    · exact absurd h (by simp)
    · split at h
      · exact absurd h (by simp)
      · injection h with h; subst h
        exact Step.collect _ _ (by simpa using ‹¬ s.collectorDone = true›) ‹_›
  | close =>
    simp only [step] at h
    split at h
    · injection h with h; subst h
      rename_i hc
      refine Step.close hc.1 ?_
      intro p hp
      have := List.all_eq_true.mp hc.2 p hp
      simpa using this
    · exact absurd h (by simp)
  | collectorExit =>
    simp only [step] at h
    split at h
    · injection h with h; subst h
      rename_i hc
      exact Step.collectorExit hc.1 hc.2.1 (by simpa using hc.2.2)
    · exact absurd h (by simp)

/-! ## Lists of workers -/

theorem wsum_set (f : Pc → Int) (l : List Pc) (i : Nat) (q p : Pc) (h : l[i]? = some q) :
    wsum f (l.set i p) = wsum f l - f q + f p := by
  induction l generalizing i with
  | nil => simp at h
  | cons a t ih =>
    cases i with
    | zero =>
      simp at h
      subst h
      simp [wsum]
      omega
    | succ j =>
      simp at h
      have := ih j h
      simp [wsum] at this ⊢
      omega

theorem wsum_bounds (f : Pc → Int) (hf : ∀ p, 0 ≤ f p ∧ f p ≤ 1) (l : List Pc) :
    0 ≤ wsum f l ∧ wsum f l ≤ l.length := by
  induction l with
  | nil => simp [wsum]
  | cons a t ih =>
    have := hf a
    simp [wsum] at ih ⊢
    omega

theorem wsum_const (f : Pc → Int) (c : Int) (l : List Pc) (h : ∀ p ∈ l, f p = c) :
    wsum f l = l.length * c := by
  induction l with
  | nil => simp [wsum]
  | cons a t ih =>
    have ha := h a (by simp)
    have ht := ih (fun p hp => h p (by simp [hp]))
    simp [wsum] at ht ⊢
    rw [ht, ha]
    ring

theorem wsum_le_add (f g : Pc → Int) (c : Int) (l : List Pc) (h : ∀ p, g p ≤ f p + c) :
    wsum g l ≤ wsum f l + l.length * c := by
  induction l with
  | nil => simp [wsum]
  | cons a t ih =>
    have := h a
    simp [wsum] at ih ⊢
    linarith

theorem mem_of_get {l : List Pc} {i : Nat} {q : Pc} (h : l[i]? = some q) : q ∈ l := by
  rw [List.getElem?_eq_some] at h
  obtain ⟨hi, rfl⟩ := h
  exact List.getElem_mem hi

theorem mem_set_self {l : List Pc} {i : Nat} {q : Pc} (p : Pc) (h : l[i]? = some q) :
    p ∈ l.set i p := by
  rw [List.getElem?_eq_some] at h
  obtain ⟨hi, _⟩ := h
  exact List.mem_set l i hi p

theorem mem_set_elim {l : List Pc} {i : Nat} {p x : Pc} (h : x ∈ l.set i p) :
    x = p ∨ x ∈ l := by
  rcases List.mem_or_eq_of_mem_set h with h | h
  · exact Or.inr h
  · exact Or.inl h

theorem mem_set_keep {l : List Pc} {i : Nat} {q x : Pc} (p : Pc) (hx : x ∈ l)
    (h : l[i]? = some q) : x = q ∨ x ∈ l.set i p := by
  induction l generalizing i with
  | nil => simp at hx
  | cons a t ih =>
    cases i with
    | zero =>
      simp at h
      subst h
      rcases List.mem_cons.mp hx with hx | hx
      · exact Or.inl hx
      · exact Or.inr (by simp [hx])
    | succ j =>
      simp at h
      rcases List.mem_cons.mp hx with hx | hx
      · exact Or.inr (by simp [hx])
      · rcases ih hx h with h1 | h1
        · exact Or.inl h1
        · exact Or.inr (by simp [h1])

/-! ## Runs -/

theorem exec_append (N : Int) (C : Nat) (s : State) (a b : List Event) :
    exec N C s (a ++ b) = (exec N C s a).bind (fun s1 => exec N C s1 b) := by
  induction a generalizing s with
  | nil => simp [exec]
  | cons e es ih =>
    simp only [List.cons_append, exec]
    cases step N C s e with
    | none => simp
    | some s1 => simpa using ih s1

theorem exec_trans {N : Int} {C : Nat} {s s1 s2 : State} {a b : List Event}
    (h1 : exec N C s a = some s1) (h2 : exec N C s1 b = some s2) :
    exec N C s (a ++ b) = some s2 := by
  rw [exec_append, h1]
  simpa using h2

theorem exec_invariant {N : Int} {C : Nat} (P : State → Prop)
    (hstep : ∀ s s1, P s → Step N C s s1 → P s1) :
    ∀ (sched : List Event) (s s1 : State), P s → exec N C s sched = some s1 → P s1 := by
  intro sched
  induction sched with
  | nil =>
    intro s s1 hs h
    simp [exec] at h
    exact h ▸ hs
  | cons e es ih =>
    intro s s1 hs h
    simp only [exec] at h
    split at h
    · exact absurd h (by simp)
    · rename_i s2 he
      exact ih s2 s1 (hstep s s2 hs (step_sound he)) h

theorem reachable_invariant {N : Int} {C : Nat} (P : State → Prop) (h0 : P (init C))
    (hstep : ∀ s s1, P s → Step N C s s1 → P s1) {s : State} (h : Reachable N C s) : P s := by
  obtain ⟨sched, hs⟩ := h
  exact exec_invariant P hstep sched _ _ h0 hs

/-! ## Shape of the run -/

theorem shapeInv_init (C : Nat) : ShapeInv C (init C) := by
  refine ⟨by simp [init], ?_, ?_⟩ <;> simp [init]

theorem shapeInv_step {N : Int} {C : Nat} {s s1 : State} (hi : ShapeInv C s)
    (h : Step N C s s1) : ShapeInv C s1 := by
  obtain ⟨hlen, hcd, hex⟩ := hi
  have hopen : ∀ (i : Nat) (q : Pc), s.workers[i]? = some q → q ≠ Pc.done →
      s.closed = false := by
    intro i q hq hne
    cases hc : s.closed with
    | false => rfl
    | true => exact absurd (hcd hc q (mem_of_get hq)) hne
  have hrun : s.closed = false → s.collectorDone = false := by
    intro hc
    cases hd : s.collectorDone with
    | false => rfl
    | true => rw [(hex hd).1] at hc; exact absurd hc (by simp)
  cases h
  all_goals first
    | (have hc := hopen _ _ ‹_› (by simp)
       have hd := hrun hc
       refine ⟨by simpa using hlen, ?_, ?_⟩
       · intro h; simp [hc] at h
       · intro h; simp [hd] at h)
    | skip
  · -- collect
    rename_i r rest hrun1 hchan
    refine ⟨hlen, fun h => hcd h, ?_⟩
    intro h
    simp [hrun1] at h
  · -- close
    rename_i hopen1 hall
    refine ⟨hlen, fun _ => hall, ?_⟩
    intro h
    have := hrun hopen1
    simp [this] at h
  · -- collectorExit
    rename_i hclosed hrun1 hempty
    exact ⟨hlen, fun h => hcd h, fun _ => ⟨hclosed, hempty⟩⟩

theorem shapeInv_reachable {N : Int} {C : Nat} {s : State} (h : Reachable N C s) :
    ShapeInv C s :=
  reachable_invariant (ShapeInv C) (shapeInv_init C) (fun _ _ hi hs => shapeInv_step hi hs) h

/-! ## Aggregation -/

theorem mapGet_mapIncr_same (m : List (Int × Int)) (k : Int) :
    mapGet (mapIncr m k) k = wrap64 (mapGet m k + 1) := by
  induction m with
  | nil => simp [mapIncr, mapGet]
  | cons a t ih =>
    obtain ⟨x, v⟩ := a
    by_cases hx : x = k
    · simp [mapIncr, mapGet, hx]
    · simp [mapIncr, mapGet, hx, ih]

theorem mapGet_mapIncr_other (m : List (Int × Int)) (k j : Int) (h : k ≠ j) :
    mapGet (mapIncr m k) j = mapGet m j := by
  induction m with
  | nil => simp [mapIncr, mapGet, h]
  | cons a t ih =>
    obtain ⟨x, v⟩ := a
    by_cases hx : x = k
    · subst hx
      simp [mapIncr, mapGet, h]
    · by_cases hj : x = j
      · subst hj
        have hne : ¬ x = k := hx
        simp [mapIncr, mapGet, hne]
      · simp [mapIncr, mapGet, hx, hj, ih]

theorem countStatus_append (k : Int) (a b : List LoadTestResult) :
    countStatus k (a ++ b) = countStatus k a + countStatus k b := by
  simp [countStatus]

theorem countStatus_cons (k : Int) (r : LoadTestResult) (t : List LoadTestResult) :
    countStatus k (r :: t) = (if r.StatusCode = k then 1 else 0) + countStatus k t := by
  simp [countStatus]

theorem sumDur_append (a b : List LoadTestResult) : sumDur (a ++ b) = sumDur a + sumDur b := by
  simp [sumDur]

theorem aggInv_init (C : Nat) : AggInv (init C) := by
  refine ⟨by simp [init, mapGet], ?_, ?_, ?_⟩
  · intro k
    have h : wsum (isSendOf k) (List.replicate C Pc.claim) = 0 := by
      rw [wsum_const (isSendOf k) 0]
      · simp
      · intro p hp
        rw [List.eq_of_mem_replicate hp]
        rfl
    simp [init, mapGet, countStatus, h, wrap64]
  · have h : wsum pendingDur (List.replicate C Pc.claim) = 0 := by
      rw [wsum_const pendingDur 0]
      · simp
      · intro p hp
        rw [List.eq_of_mem_replicate hp]
        rfl
    simp [init, sumDur, h, wrap64]
  · simp [init]

theorem aggInv_step {N : Int} {C : Nat} {s s1 : State} (hi : AggInv s)
    (h : Step N C s s1) : AggInv s1 := by
  obtain ⟨hsucc, hper, htot, hrange⟩ := hi
  cases h
  case respond i resp dur hpc hdur =>
    refine ⟨hsucc, ?_, ?_, ?_⟩
    · intro k
      simp only [wsum_set _ _ _ _ _ hpc, countStatus_append, countStatus_cons, hper k, isSendOf]
      congr 1
      simp only [countStatus, List.map_nil, List.sum_nil]
      ring
    · simp only [wsum_set _ _ _ _ _ hpc, sumDur_append, htot, pendingDur]
      congr 1
      simp only [sumDur, List.map_cons, List.map_nil, List.sum_cons, List.sum_nil]
      ring
    · intro r hr
      simp only [List.mem_append, List.mem_singleton] at hr
      rcases hr with hr | hr
      · exact hrange r hr
      · subst hr; exact hdur
  case send i code dur hpc hroom =>
    refine ⟨hsucc, ?_, ?_, hrange⟩
    · intro k
      simp only [wsum_set _ _ _ _ _ hpc, countStatus_append, countStatus_cons, hper k, isSendOf]
      congr 1
      simp only [countStatus, List.map_nil, List.sum_nil]
      ring
    · simp only [wsum_set _ _ _ _ _ hpc, htot, pendingDur]
      congr 1
      omega
  case addTotal i dur hpc =>
    refine ⟨hsucc, ?_, ?_, hrange⟩
    · intro k
      simp only [wsum_set _ _ _ _ _ hpc, hper k, isSendOf]
      congr 1
      omega
    · simp only [wsum_set _ _ _ _ _ hpc, htot, pendingDur, wrap64_add_wrap64]
      congr 1
      omega
  case collect r rest hrun hchan =>
    refine ⟨?_, ?_, htot, hrange⟩
    · by_cases h200 : r.StatusCode = 200
      · simp only [h200, if_true, mapGet_mapIncr_same, hsucc]
      · simp only [h200, if_false, mapGet_mapIncr_other _ _ _ h200, hsucc]
    · intro k
      have hk := hper k
      rw [hchan, countStatus_cons] at hk
      by_cases hrk : r.StatusCode = k
      · subst hrk
        simp only [mapGet_mapIncr_same, hk, if_true, wrap64_add_wrap64]
        congr 1
        omega
      · simp only [mapGet_mapIncr_other _ _ _ hrk, hk, hrk, if_false]
        congr 1
        omega
  all_goals
    refine ⟨hsucc, ?_, ?_, hrange⟩
    · intro k
      first
        | exact hper k
        | (simp only [wsum_set _ _ _ _ _ ‹_›, hper k, isSendOf]
           congr 1
           omega)
    · first
        | exact htot
        | (simp only [wsum_set _ _ _ _ _ ‹_›, htot, pendingDur]
           congr 1
           omega)

theorem aggInv_reachable {N : Int} {C : Nat} {s : State} (h : Reachable N C s) : AggInv s :=
  reachable_invariant AggInv (aggInv_init C) (fun _ _ hi hs => aggInv_step hi hs) h

/-! ## The compare-and-swap loops -/

theorem forall_set (P : Pc → Prop) (l : List Pc) (i : Nat) (p : Pc)
    (hold : ∀ x ∈ l, P x) (hp : P p) : ∀ x ∈ l.set i p, P x := by
  intro x hx
  rcases mem_set_elim hx with h | h
  · exact h ▸ hp
  · exact hold x h

theorem cover_step (B : Int → Pc → Prop) (Q Q1 : Int → Prop) (l : List Pc) (i : Nat)
    (q p : Pc) (D : List Int) (hq : l[i]? = some q) (hQ : ∀ d, Q d → Q1 d)
    (hqp : ∀ d, B d q → B d p ∨ Q1 d)
    (hold : ∀ d ∈ D, Q d ∨ ∃ x ∈ l, B d x) :
    ∀ d ∈ D, Q1 d ∨ ∃ x ∈ l.set i p, B d x := by
  intro d hd
  rcases hold d hd with h | ⟨x, hx, hb⟩
  · exact Or.inl (hQ d h)
  · rcases mem_set_keep p hx hq with h | h
    · subst h
      rcases hqp d hb with h1 | h1
      · exact Or.inr ⟨p, mem_set_self p hq, h1⟩
      · exact Or.inl h1
    · exact Or.inr ⟨x, h, hb⟩

theorem durations_append (a b : List LoadTestResult) :
    durations (a ++ b) = durations a ++ durations b := by
  simp [durations]

theorem extremeInv_init (C : Nat) : ExtremeInv (init C) := by
  refine ⟨?_, ?_, Or.inl rfl, Or.inl rfl, ?_, ?_⟩
  · intro p hp d hd
    simp only [init] at hp
    rw [List.eq_of_mem_replicate hp] at hd
    simp [carried] at hd
  · intro p hp
    simp only [init] at hp
    rw [List.eq_of_mem_replicate hp]
    trivial
  · intro d hd; simp [init, durations] at hd
  · intro d hd; simp [init, durations] at hd

theorem extreme_worker (s s1 : State) (i : Nat) (q p : Pc) (hpc : s.workers[i]? = some q)
    (hi : ExtremeInv s) (hw : s1.workers = s.workers.set i p) (ho : s1.outcomes = s.outcomes)
    (hcar : ∀ d, carried p = some d → carried q = some d)
    (hcas : CasOk p)
    (hmn : s1.minDuration ≤ s.minDuration) (hmx : s.maxDuration ≤ s1.maxDuration)
    (hmnS : s1.minDuration = s.minDuration ∨ carried q = some s1.minDuration)
    (hmxS : s1.maxDuration = s.maxDuration ∨ carried q = some s1.maxDuration)
    (hlow : ∀ d, beforeMin d q → beforeMin d p ∨ s1.minDuration ≤ d)
    (hhigh : ∀ d, beforeMax d q → beforeMax d p ∨ d ≤ s1.maxDuration) :
    ExtremeInv s1 := by
  obtain ⟨hcs, hco, hms, hxs, hml, hxh⟩ := hi
  have hq := mem_of_get hpc
  refine ⟨?_, ?_, ?_, ?_, ?_, ?_⟩
  · rw [hw, ho]
    exact forall_set _ _ i p hcs (fun d hd => hcs q hq d (hcar d hd))
  · rw [hw]
    exact forall_set _ _ i p hco hcas
  · rw [ho]
    rcases hmnS with h | h
    · rw [h]; exact hms
    · exact Or.inr (hcs q hq _ h)
  · rw [ho]
    rcases hmxS with h | h
    · rw [h]; exact hxs
    · exact Or.inr (hcs q hq _ h)
  · rw [hw, ho]
    exact cover_step beforeMin (fun d => s.minDuration ≤ d) (fun d => s1.minDuration ≤ d)
      _ i q p _ hpc (fun d hd => le_trans hmn hd) hlow hml
  · rw [hw, ho]
    exact cover_step beforeMax (fun d => d ≤ s.maxDuration) (fun d => d ≤ s1.maxDuration)
      _ i q p _ hpc (fun d hd => le_trans hd hmx) hhigh hxh

theorem extremeInv_step {N : Int} {C : Nat} {s s1 : State} (hi : ExtremeInv s)
    (h : Step N C s s1) : ExtremeInv s1 := by
  cases h
  case claimReject i hpc hgt =>
    exact extreme_worker s _ i _ Pc.done hpc hi rfl rfl (fun d hd => by simp [carried] at hd)
      trivial (le_refl _) (le_refl _) (Or.inl rfl) (Or.inl rfl)
      (fun d hd => by simp [beforeMin] at hd) (fun d hd => by simp [beforeMax] at hd)
  case claimAccept i hpc hle =>
    exact extreme_worker s _ i _ Pc.get hpc hi rfl rfl (fun d hd => by simp [carried] at hd)
      trivial (le_refl _) (le_refl _) (Or.inl rfl) (Or.inl rfl)
      (fun d hd => by simp [beforeMin] at hd) (fun d hd => by simp [beforeMax] at hd)
  case respond i resp dur hpc hdur =>
    obtain ⟨hcs, hco, hms, hxs, hml, hxh⟩ := hi
    have hsub : ∀ d, d ∈ durations s.outcomes →
        d ∈ durations (s.outcomes ++ [⟨statusOf resp, dur⟩]) := by
      intro d hd
      rw [durations_append]
      exact List.mem_append_left _ hd
    have hnew : dur ∈ durations (s.outcomes ++ [⟨statusOf resp, dur⟩]) := by
      simp [durations]
    have hsplit : ∀ d, d ∈ durations (s.outcomes ++ [⟨statusOf resp, dur⟩]) →
        d ∈ durations s.outcomes ∨ d = dur := by
      intro d hd
      simpa [durations] using hd
    refine ⟨?_, ?_, ?_, ?_, ?_, ?_⟩
    · refine forall_set _ _ i _ (fun x hx d hd => hsub d (hcs x hx d hd)) ?_
      intro d hd
      simp only [carried, Option.some.injEq] at hd
      exact hd ▸ hnew
    · exact forall_set _ _ i _ hco trivial
    · exact hms.imp id (hsub _)
    · exact hxs.imp id (hsub _)
    · intro d hd
      rcases hsplit d hd with h | h
      · exact cover_step beforeMin (fun d => s.minDuration ≤ d) (fun d => s.minDuration ≤ d)
          _ i _ _ _ hpc (fun d hd => hd) (fun d hd => by simp [beforeMin] at hd) hml d h
      · exact Or.inr ⟨_, mem_set_self _ hpc, h.symm⟩
    · intro d hd
      rcases hsplit d hd with h | h
      · exact cover_step beforeMax (fun d => d ≤ s.maxDuration) (fun d => d ≤ s.maxDuration)
          _ i _ _ _ hpc (fun d hd => hd) (fun d hd => by simp [beforeMax] at hd) hxh d h
      · exact Or.inr ⟨_, mem_set_self _ hpc, h.symm⟩
  case send i code dur hpc hroom =>
    exact extreme_worker s _ i _ (Pc.addTotal dur) hpc hi rfl rfl (fun d hd => hd)
      trivial (le_refl _) (le_refl _) (Or.inl rfl) (Or.inl rfl)
      (fun d hd => Or.inl hd) (fun d hd => Or.inl hd)
  case addTotal i dur hpc =>
    exact extreme_worker s _ i _ (Pc.loadMin dur) hpc hi rfl rfl (fun d hd => hd)
      trivial (le_refl _) (le_refl _) (Or.inl rfl) (Or.inl rfl)
      (fun d hd => Or.inl hd) (fun d hd => Or.inl hd)
  case loadMinLt i dur hpc hlt =>
    exact extreme_worker s _ i _ (Pc.casMin dur s.minDuration) hpc hi rfl rfl (fun d hd => hd)
      hlt (le_refl _) (le_refl _) (Or.inl rfl) (Or.inl rfl)
      (fun d hd => Or.inl hd) (fun d hd => Or.inl hd)
  case loadMinGe i dur hpc hge =>
    exact extreme_worker s _ i _ (Pc.loadMax dur) hpc hi rfl rfl (fun d hd => hd)
      trivial (le_refl _) (le_refl _) (Or.inl rfl) (Or.inl rfl)
      (fun d hd => Or.inr (by
        have h1 : dur = d := hd
        have h2 := not_lt.mp hge
        simpa [h1] using h2))
      (fun d hd => Or.inl hd)
  case casMinOk i dur cur hpc heq =>
    have hok : dur < cur := hi.casOk _ (mem_of_get hpc)
    exact extreme_worker s _ i _ (Pc.loadMax dur) hpc hi rfl rfl (fun d hd => hd)
      trivial (by simp only; omega) (le_refl _) (Or.inr rfl) (Or.inl rfl)
      (fun d hd => Or.inr (by
        have h1 : dur = d := hd
        simp [h1]))
      (fun d hd => Or.inl hd)
  case casMinFail i dur cur hpc hne =>
    exact extreme_worker s _ i _ (Pc.loadMin dur) hpc hi rfl rfl (fun d hd => hd)
      trivial (le_refl _) (le_refl _) (Or.inl rfl) (Or.inl rfl)
      (fun d hd => Or.inl hd) (fun d hd => Or.inl hd)
  case loadMaxGt i dur hpc hgt =>
    exact extreme_worker s _ i _ (Pc.casMax dur s.maxDuration) hpc hi rfl rfl (fun d hd => hd)
      hgt (le_refl _) (le_refl _) (Or.inl rfl) (Or.inl rfl)
      (fun d hd => by simp [beforeMin] at hd) (fun d hd => Or.inl hd)
  case loadMaxLe i dur hpc hle =>
    exact extreme_worker s _ i _ Pc.claim hpc hi rfl rfl (fun d hd => by simp [carried] at hd)
      trivial (le_refl _) (le_refl _) (Or.inl rfl) (Or.inl rfl)
      (fun d hd => by simp [beforeMin] at hd)
      (fun d hd => Or.inr (by
        have h1 : dur = d := hd
        have h2 := not_lt.mp hle
        simpa [h1] using h2))
  case casMaxOk i dur cur hpc heq =>
    have hok : cur < dur := hi.casOk _ (mem_of_get hpc)
    exact extreme_worker s _ i _ Pc.claim hpc hi rfl rfl (fun d hd => by simp [carried] at hd)
      trivial (le_refl _) (by simp only; omega) (Or.inl rfl) (Or.inr rfl)
      (fun d hd => by simp [beforeMin] at hd)
      (fun d hd => Or.inr (by
        have h1 : dur = d := hd
        simp [h1]))
  case casMaxFail i dur cur hpc hne =>
    exact extreme_worker s _ i _ (Pc.loadMax dur) hpc hi rfl rfl (fun d hd => hd)
      trivial (le_refl _) (le_refl _) (Or.inl rfl) (Or.inl rfl)
      (fun d hd => by simp [beforeMin] at hd) (fun d hd => Or.inl hd)
  case collect r rest hrun hchan =>
    exact ⟨hi.carriedSeen, hi.casOk, hi.minSeen, hi.maxSeen, hi.minLow, hi.maxHigh⟩
  case close hopen hall =>
    exact ⟨hi.carriedSeen, hi.casOk, hi.minSeen, hi.maxSeen, hi.minLow, hi.maxHigh⟩
  case collectorExit hclosed hrun hempty =>
    exact ⟨hi.carriedSeen, hi.casOk, hi.minSeen, hi.maxSeen, hi.minLow, hi.maxHigh⟩

theorem extremeInv_reachable {N : Int} {C : Nat} {s : State} (h : Reachable N C s) :
    ExtremeInv s :=
  reachable_invariant ExtremeInv (extremeInv_init C) (fun _ _ hi hs => extremeInv_step hi hs) h

/-! ## The work counter -/

theorem tickets_succ (c : Int) (h : 0 ≤ c) : tickets (c + 1) = tickets c ++ [c + 1] := by
  have h1 : (c + 1).toNat = c.toNat + 1 := by omega
  have h2 : ((c.toNat : Nat) : Int) = c := Int.toNat_of_nonneg h
  simp [tickets, h1, List.range_succ, h2]

theorem mapSum_nonneg (m : List (Int × Int)) (hpos : ∀ kv ∈ m, 1 ≤ kv.2) : 0 ≤ mapSum m := by
  simp only [mapSum]
  apply List.sum_nonneg
  intro y hy
  simp only [List.mem_map] at hy
  obtain ⟨kv, hkv, rfl⟩ := hy
  have := hpos kv hkv
  omega

theorem mapSum_mapIncr (m : List (Int × Int)) (k : Int) (hpos : ∀ kv ∈ m, 1 ≤ kv.2)
    (hb : mapSum m + 1 ≤ maxInt64) :
    mapSum (mapIncr m k) = mapSum m + 1 ∧ ∀ kv ∈ mapIncr m k, 1 ≤ kv.2 := by
  induction m with
  | nil =>
    simp [mapIncr, mapSum, wrap64]
  | cons a t ih =>
    obtain ⟨x, v⟩ := a
    have hv : 1 ≤ v := hpos (x, v) (by simp)
    have ht : ∀ kv ∈ t, 1 ≤ kv.2 := fun kv hkv => hpos kv (by simp [hkv])
    have hsum : 0 ≤ mapSum t := mapSum_nonneg t ht
    have hcons : mapSum ((x, v) :: t) = v + mapSum t := by simp [mapSum]
    rw [hcons] at hb
    by_cases hx : x = k
    · have hw : wrap64 (v + 1) = v + 1 :=
        wrap64_of_fits _ (by unfold minInt64; omega) (by omega)
      simp only [mapIncr, hx, if_true, hw]
      refine ⟨by simp [mapSum]; omega, ?_⟩
      intro kv hkv
      simp only [List.mem_cons] at hkv
      rcases hkv with h | h
      · subst h; simp; omega
      · exact ht kv h
    · have := ih ht (by omega)
      simp only [mapIncr, hx, if_false]
      refine ⟨by simp [mapSum] at this ⊢; omega, ?_⟩
      intro kv hkv
      simp only [List.mem_cons] at hkv
      rcases hkv with h | h
      · subst h; exact hv
      · exact this.2 kv h

theorem mapSum_zero (m : List (Int × Int)) (hpos : ∀ kv ∈ m, 1 ≤ kv.2) (h : mapSum m = 0) :
    m = [] := by
  cases m with
  | nil => rfl
  | cons a t =>
    have ha := hpos a (by simp)
    have ht := mapSum_nonneg t (fun kv hkv => hpos kv (by simp [hkv]))
    simp [mapSum] at h ht
    omega

theorem mapGet_le_mapSum (m : List (Int × Int)) (k : Int) (hpos : ∀ kv ∈ m, 1 ≤ kv.2) :
    mapGet m k ≤ mapSum m := by
  induction m with
  | nil => simp [mapGet, mapSum]
  | cons a t ih =>
    obtain ⟨x, v⟩ := a
    have hv : 1 ≤ v := hpos (x, v) (by simp)
    have ht : ∀ kv ∈ t, 1 ≤ kv.2 := fun kv hkv => hpos kv (by simp [hkv])
    have h1 := ih ht
    have h2 := mapSum_nonneg t ht
    simp only [mapSum] at h1 h2
    by_cases hx : x = k
    · simp [mapGet, mapSum, hx]; omega
    · simp [mapGet, mapSum, hx]; omega

theorem isDone_bounds (p : Pc) : 0 ≤ isDone p ∧ isDone p ≤ 1 := by
  cases p <;> simp [isDone]

theorem isGet_bounds (p : Pc) : 0 ≤ isGet p ∧ isGet p ≤ 1 := by
  cases p <;> simp [isGet]

theorem isSend_bounds (p : Pc) : 0 ≤ isSend p ∧ isSend p ≤ 1 := by
  cases p <;> simp [isSend]

theorem wsum_replicate_claim (f : Pc → Int) (C : Nat) (h : f Pc.claim = 0) :
    wsum f (List.replicate C Pc.claim) = 0 := by
  rw [wsum_const f 0]
  · simp
  · intro p hp
    rw [List.eq_of_mem_replicate hp]
    exact h

theorem counterInv_init (N : Int) (C : Nat) : CounterInv N (init C) := by
  refine ⟨by simp [init], ?_, by simp [init, tickets], ?_, ?_, by simp [init]⟩
  · simp only [init, wsum_replicate_claim isDone C rfl]
    omega
  · simp only [init, wsum_replicate_claim isGet C rfl]
    simp
  · simp only [init, wsum_replicate_claim isSend C rfl]
    simp [mapSum]

/-- While a worker is about to claim, the counter is at least one step from the top. -/
theorem counter_room {N : Int} {C : Nat} {s : State} {i : Nat} (hfit : Fits N C)
    (hshape : ShapeInv C s) (hi : CounterInv N s) (hpc : s.workers[i]? = some Pc.claim) :
    wrap64 (s.requestCounter + 1) = s.requestCounter + 1 := by
  have h1 := wsum_set isDone s.workers i Pc.claim Pc.done hpc
  have h2 := (wsum_bounds isDone isDone_bounds (s.workers.set i Pc.done)).2
  have h3 := hi.doneCount
  have h4 := hi.nonneg
  have h5 := hshape.len
  obtain ⟨hf1, hf2⟩ := hfit
  simp only [isDone, List.length_set] at h1 h2
  unfold maxInt64 at hf1 hf2
  apply wrap64_of_fits
  · unfold minInt64; omega
  · unfold maxInt64; omega

theorem counterInv_step {N : Int} {C : Nat} {s s1 : State} (hfit : Fits N C)
    (hshape : ShapeInv C s) (hi : CounterInv N s) (h : Step N C s s1) : CounterInv N s1 := by
  obtain ⟨hnn, hdone, hlog, hfl, hdel, hcnt⟩ := hi
  cases h
  case claimReject i hpc hgt =>
    have hw := counter_room hfit hshape ⟨hnn, hdone, hlog, hfl, hdel, hcnt⟩ hpc
    rw [hw] at hgt
    refine ⟨?_, ?_, ?_, ?_, ?_, hcnt⟩
    · simp only [hw]; omega
    · simp only [hw, wsum_set _ _ _ _ _ hpc, isDone, hdone]; omega
    · simp only [hw, hlog, tickets_succ _ hnn]
    · simp only [hw, wsum_set _ _ _ _ _ hpc, isGet]; omega
    · simp only [wsum_set _ _ _ _ _ hpc, isSend]; omega
  case claimAccept i hpc hle =>
    have hw := counter_room hfit hshape ⟨hnn, hdone, hlog, hfl, hdel, hcnt⟩ hpc
    rw [hw] at hle
    refine ⟨?_, ?_, ?_, ?_, ?_, hcnt⟩
    · simp only [hw]; omega
    · simp only [hw, wsum_set _ _ _ _ _ hpc, isDone, hdone]; omega
    · simp only [hw, hlog, tickets_succ _ hnn]
    · simp only [hw, wsum_set _ _ _ _ _ hpc, isGet]; omega
    · simp only [wsum_set _ _ _ _ _ hpc, isSend]; omega
  case respond i resp dur hpc hdur =>
    refine ⟨hnn, ?_, hlog, ?_, ?_, hcnt⟩
    · simp only [wsum_set _ _ _ _ _ hpc, isDone, hdone]; omega
    · simp only [wsum_set _ _ _ _ _ hpc, isGet, List.length_append, List.length_singleton]
      push_cast; omega
    · simp only [wsum_set _ _ _ _ _ hpc, isSend, List.length_append, List.length_singleton]
      push_cast; omega
  case send i code dur hpc hroom =>
    refine ⟨hnn, ?_, hlog, ?_, ?_, hcnt⟩
    · simp only [wsum_set _ _ _ _ _ hpc, isDone, hdone]; omega
    · simp only [wsum_set _ _ _ _ _ hpc, isGet]; omega
    · simp only [wsum_set _ _ _ _ _ hpc, isSend, List.length_append, List.length_singleton]
      push_cast; omega
  case collect r rest hrun hchan =>
    have hg := (wsum_bounds isGet isGet_bounds s.workers).1
    have hs := (wsum_bounds isSend isSend_bounds s.workers).1
    obtain ⟨hf1, hf2⟩ := hfit
    rw [hchan] at hdel
    simp only [List.length_cons] at hdel
    push_cast at hdel
    have hb : mapSum s.statusDistribution + 1 ≤ maxInt64 := by
      unfold maxInt64 at hf1 hf2 ⊢
      omega
    obtain ⟨hsum, hpos⟩ := mapSum_mapIncr s.statusDistribution r.StatusCode hcnt hb
    refine ⟨hnn, hdone, hlog, hfl, ?_, hpos⟩
    simp only [hsum]
    omega
  case close hopen hall => exact ⟨hnn, hdone, hlog, hfl, hdel, hcnt⟩
  case collectorExit hclosed hrun hempty => exact ⟨hnn, hdone, hlog, hfl, hdel, hcnt⟩
  all_goals
    refine ⟨hnn, ?_, hlog, ?_, ?_, hcnt⟩
    · simp only [wsum_set _ _ _ _ _ ‹_›, isDone, hdone]; omega
    · simp only [wsum_set _ _ _ _ _ ‹_›, isGet]; omega
    · simp only [wsum_set _ _ _ _ _ ‹_›, isSend]; omega

/-- The invariants that hold together on every state of a run whose counter cannot wrap. -/
theorem counterInv_reachable {N : Int} {C : Nat} {s : State} (hfit : Fits N C)
    (h : Reachable N C s) : CounterInv N s := by
  have h2 : ShapeInv C s ∧ CounterInv N s :=
    reachable_invariant (fun s => ShapeInv C s ∧ CounterInv N s)
      ⟨shapeInv_init C, counterInv_init N C⟩
      (fun _ _ hi hs => ⟨shapeInv_step hi.1 hs, counterInv_step hfit hi.1 hi.2 hs⟩) h
  exact h2.2

/-! ## Termination: every transition lowers the measure -/

theorem weight_shift (C : Nat) (mn mx mn1 mx1 : Int) (p : Pc) :
    weight C mn1 mx1 p ≤ weight C mn mx p + 2 := by
  cases p <;> simp only [weight] <;> (try split_ifs) <;> omega

theorem weight_nonneg (C : Nat) (mn mx : Int) (p : Pc) : 0 ≤ weight C mn mx p := by
  cases p <;> simp only [weight] <;> (try split_ifs) <;> omega

theorem wsum_weight_shift (C : Nat) (mn mx mn1 mx1 : Int) (l : List Pc) :
    wsum (weight C mn1 mx1) l ≤ wsum (weight C mn mx) l + l.length * 2 :=
  wsum_le_add _ _ 2 l (weight_shift C mn mx mn1 mx1)

theorem wsum_weight_nonneg (C : Nat) (mn mx : Int) (l : List Pc) :
    0 ≤ wsum (weight C mn mx) l := by
  simp only [wsum]
  apply List.sum_nonneg
  intro y hy
  simp only [List.mem_map] at hy
  obtain ⟨p, _, rfl⟩ := hy
  exact weight_nonneg C mn mx p

theorem measure_nonneg (N : Int) (C : Nat) (s : State) : 0 ≤ measure N C s := by
  have h1 := wsum_weight_nonneg C s.minDuration s.maxDuration s.workers
  have h2 : 0 ≤ max 0 (max N 0 - s.requestCounter) * (4 * (C : Int) + 9) :=
    mul_nonneg (le_max_left _ _) (by omega)
  have h3 : (0 : Int) ≤ (if s.closed then 0 else 1) := by split_ifs <;> omega
  have h4 : (0 : Int) ≤ (if s.collectorDone then 0 else 1) := by split_ifs <;> omega
  simp only [measure]
  omega

theorem measure_step {N : Int} {C : Nat} {s s1 : State} (hfit : Fits N C)
    (hshape : ShapeInv C s) (hi : CounterInv N s) (h : Step N C s s1) :
    measure N C s1 + 1 ≤ measure N C s := by
  have hlen := hshape.len
  cases h
  case claimReject i hpc hgt =>
    have hw := counter_room hfit hshape hi hpc
    rw [hw] at hgt
    have hnn := hi.nonneg
    have h1 : max 0 (max N 0 - (s.requestCounter + 1)) = 0 := by omega
    have h2 : max 0 (max N 0 - s.requestCounter) = 0 := by omega
    simp only [measure, hw, wsum_set _ _ _ _ _ hpc, weight, h1, h2]
    omega
  case claimAccept i hpc hle =>
    have hw := counter_room hfit hshape hi hpc
    rw [hw] at hle
    have hnn := hi.nonneg
    have h1 : max 0 (max N 0 - (s.requestCounter + 1))
        = max 0 (max N 0 - s.requestCounter) - 1 := by omega
    simp only [measure, hw, wsum_set _ _ _ _ _ hpc, weight, h1]
    have h2 : (max 0 (max N 0 - s.requestCounter) - 1) * (4 * (C : Int) + 9)
        = max 0 (max N 0 - s.requestCounter) * (4 * (C : Int) + 9) - (4 * (C : Int) + 9) := by
      ring
    rw [h2]
    omega
  case respond i resp dur hpc hdur =>
    simp only [measure, wsum_set _ _ _ _ _ hpc, weight]
    omega
  case send i code dur hpc hroom =>
    simp only [measure, wsum_set _ _ _ _ _ hpc, weight, List.length_append,
      List.length_singleton]
    push_cast
    omega
  case addTotal i dur hpc =>
    simp only [measure, wsum_set _ _ _ _ _ hpc, weight]
    omega
  case loadMinLt i dur hpc hlt =>
    simp only [measure, wsum_set _ _ _ _ _ hpc, weight, if_true]
    omega
  case loadMinGe i dur hpc hge =>
    simp only [measure, wsum_set _ _ _ _ _ hpc, weight]
    omega
  case casMinOk i dur cur hpc heq =>
    subst heq
    have h1 := wsum_weight_shift C s.minDuration s.maxDuration dur s.maxDuration
      (s.workers.set i (Pc.loadMax dur))
    have h2 := wsum_set (weight C s.minDuration s.maxDuration) s.workers i _
      (Pc.loadMax dur) hpc
    simp only [weight, if_true] at h2
    simp only [List.length_set, hlen] at h1
    simp only [measure]
    omega
  case casMinFail i dur cur hpc hne =>
    have hne1 : ¬ cur = s.minDuration := fun e => hne e.symm
    simp only [measure, wsum_set _ _ _ _ _ hpc, weight, hne1, if_false]
    omega
  case loadMaxGt i dur hpc hgt =>
    simp only [measure, wsum_set _ _ _ _ _ hpc, weight, if_true]
    omega
  case loadMaxLe i dur hpc hle =>
    simp only [measure, wsum_set _ _ _ _ _ hpc, weight]
    omega
  case casMaxOk i dur cur hpc heq =>
    subst heq
    have h1 := wsum_weight_shift C s.minDuration s.maxDuration s.minDuration dur
      (s.workers.set i Pc.claim)
    have h2 := wsum_set (weight C s.minDuration s.maxDuration) s.workers i _
      Pc.claim hpc
    simp only [weight, if_true] at h2
    simp only [List.length_set, hlen] at h1
    simp only [measure]
    omega
  case casMaxFail i dur cur hpc hne =>
    have hne1 : ¬ cur = s.maxDuration := fun e => hne e.symm
    simp only [measure, wsum_set _ _ _ _ _ hpc, weight, hne1, if_false]
    omega
  case collect r rest hrun hchan =>
    simp only [measure, hchan, List.length_cons]
    push_cast
    omega
  case close hopen hall =>
    simp only [measure, hopen]
    simp only [Bool.false_eq_true, if_false, if_true]
    split_ifs <;> omega
  case collectorExit hclosed hrun hempty =>
    simp only [measure, hrun, hclosed]
    simp only [Bool.false_eq_true, if_false, if_true]
    omega

/-- A run whose counter cannot wrap is at most as long as the initial measure. -/
theorem exec_bounded {N : Int} {C : Nat} (hfit : Fits N C) :
    ∀ (sched : List Event) (s s1 : State), ShapeInv C s → CounterInv N s →
      exec N C s sched = some s1 →
      measure N C s1 + sched.length ≤ measure N C s := by
  intro sched
  induction sched with
  | nil =>
    intro s s1 _ _ h
    simp [exec] at h
    subst h
    simp
  | cons e es ih =>
    intro s s1 hsh hc h
    simp only [exec] at h
    split at h
    · exact absurd h (by simp)
    · rename_i s2 he
      have hst := step_sound he
      have h1 := measure_step hfit hsh hc hst
      have h2 := ih s2 s1 (shapeInv_step hsh hst) (counterInv_step hfit hsh hc hst) h
      simp only [List.length_cons]
      push_cast
      omega

theorem measure_init (N : Int) (C : Nat) :
    measure N C (init C) = max N 0 * (4 * (C : Int) + 9) + C + 2 := by
  have h : wsum (weight C maxInt64 0) (List.replicate C Pc.claim) = C := by
    rw [wsum_const _ 1]
    · simp
    · intro p hp
      rw [List.eq_of_mem_replicate hp]
      rfl
  have h2 : max 0 (max N 0 - 0) = max N 0 := by omega
  simp only [measure, init, h, h2]
  simp
  omega

/-! ## Progress: a run that has not returned can always take a transition -/

theorem progress_isSome (N : Int) (C : Nat) (s : State) (hlen : s.workers.length = C)
    (hrun : s.collectorDone = false) : ∃ e, (step N C s e).isSome = true := by
  by_cases hall : ∀ p ∈ s.workers, p = Pc.done
  · cases hc : s.closed with
    | false =>
      refine ⟨Event.close, ?_⟩
      have h2 : (s.workers.all fun p => decide (p = Pc.done)) = true := by
        rw [List.all_eq_true]
        intro p hp
        simpa using hall p hp
      simp [step, hc, h2]
    | true =>
      cases hch : s.resultChan with
      | nil =>
        refine ⟨Event.collectorExit, ?_⟩
        simp [step, hc, hrun, hch]
      | cons r rest =>
        exact ⟨Event.collect, by simp [step, hrun, hch]⟩
  · push_neg at hall
    obtain ⟨p, hp, hne⟩ := hall
    obtain ⟨i, hi, hget⟩ := List.getElem_of_mem hp
    have hpc : s.workers[i]? = some p := by
      rw [List.getElem?_eq_some]
      exact ⟨hi, hget⟩
    cases p with
    | claim =>
      by_cases hgt : wrap64 (s.requestCounter + 1) > N
      · exact ⟨Event.work i, by simp [step, stepWorker, hpc, hgt, if_true]⟩
      · exact ⟨Event.work i, by simp [step, stepWorker, hpc, hgt, if_false]⟩
    | get =>
      refine ⟨Event.respond i none 0, ?_⟩
      have h0 : minInt64 ≤ 0 ∧ (0 : Int) ≤ maxInt64 := by
        unfold minInt64 maxInt64; omega
      simp [step, hpc, h0]
    | send code dur =>
      by_cases hroom : s.resultChan.length < C
      · exact ⟨Event.work i, by simp [step, stepWorker, hpc, hroom, if_true]⟩
      · cases hch : s.resultChan with
        | nil =>
          rw [hch] at hroom
          simp only [List.length_nil] at hroom
          omega
        | cons r rest =>
          exact ⟨Event.collect, by simp [step, hrun, hch]⟩
    | addTotal dur => exact ⟨Event.work i, by simp [step, stepWorker, hpc]⟩
    | loadMin dur =>
      by_cases hlt : dur < s.minDuration
      · exact ⟨Event.work i, by simp [step, stepWorker, hpc, hlt, if_true]⟩
      · exact ⟨Event.work i, by simp [step, stepWorker, hpc, hlt, if_false]⟩
    | casMin dur cur =>
      by_cases heq : s.minDuration = cur
      · exact ⟨Event.work i, by simp [step, stepWorker, hpc, heq, if_true]⟩
      · exact ⟨Event.work i, by simp [step, stepWorker, hpc, heq, if_false]⟩
    | loadMax dur =>
      by_cases hgt : dur > s.maxDuration
      · exact ⟨Event.work i, by simp [step, stepWorker, hpc, hgt, if_true]⟩
      · exact ⟨Event.work i, by simp [step, stepWorker, hpc, hgt, if_false]⟩
    | casMax dur cur =>
      by_cases heq : s.maxDuration = cur
      · exact ⟨Event.work i, by simp [step, stepWorker, hpc, heq, if_true]⟩
      · exact ⟨Event.work i, by simp [step, stepWorker, hpc, heq, if_false]⟩
    | done => exact absurd rfl hne

theorem progress (N : Int) (C : Nat) (s : State) (hlen : s.workers.length = C)
    (hrun : s.collectorDone = false) : ∃ e s1, step N C s e = some s1 := by
  obtain ⟨e, he⟩ := progress_isSome N C s hlen hrun
  exact ⟨e, Option.isSome_iff_exists.mp he⟩

/-- Every state of a run whose counter cannot wrap can be driven to the return. -/
theorem run_completes {N : Int} {C : Nat} (hfit : Fits N C) :
    ∀ (n : Nat) (s : State), ShapeInv C s → CounterInv N s → measure N C s ≤ n →
      ∃ more s1, exec N C s more = some s1 ∧ s1.collectorDone = true := by
  intro n
  induction n with
  | zero =>
    intro s hsh hc hm
    cases hd : s.collectorDone with
    | true => exact ⟨[], s, rfl, hd⟩
    | false =>
      obtain ⟨e, s1, hstep⟩ := progress N C s hsh.len hd
      have h1 := measure_step hfit hsh hc (step_sound hstep)
      have h2 := measure_nonneg N C s1
      simp only [Nat.cast_zero] at hm
      omega
  | succ n ih =>
    intro s hsh hc hm
    cases hd : s.collectorDone with
    | true => exact ⟨[], s, rfl, hd⟩
    | false =>
      obtain ⟨e, s1, hstep⟩ := progress N C s hsh.len hd
      have hst := step_sound hstep
      have h1 := measure_step hfit hsh hc hst
      push_cast at hm
      obtain ⟨more, s2, hexec, hdone⟩ :=
        ih s1 (shapeInv_step hsh hst) (counterInv_step hfit hsh hc hst) (by omega)
      exact ⟨e :: more, s2, by simp only [exec, hstep, hexec], hdone⟩

/-- Every run whose counter cannot wrap extends to a run that returns. -/
theorem run_extends {N : Int} {C : Nat} (hfit : Fits N C) {sched : List Event} {s : State}
    (hexec : exec N C (init C) sched = some s) :
    ∃ more s1, exec N C (init C) (sched ++ more) = some s1 ∧ s1.collectorDone = true := by
  have hreach : Reachable N C s := ⟨sched, hexec⟩
  have hm := measure_nonneg N C s
  obtain ⟨more, s1, h1, h2⟩ := run_completes hfit (measure N C s).toNat s
    (shapeInv_reachable hreach) (counterInv_reachable hfit hreach) (by omega)
  exact ⟨more, s1, exec_trans hexec h1, h2⟩

/-! ## The state at the return of `performLoadTest` -/

theorem returned_allDone {C : Nat} {s : State} (hshape : ShapeInv C s)
    (hdone : s.collectorDone = true) : AllDone s ∧ s.resultChan = [] :=
  ⟨hshape.closedDone (hshape.exitDrained hdone).1, (hshape.exitDrained hdone).2⟩

theorem allDone_wsum (f : Pc → Int) (s : State) (h : AllDone s) :
    wsum f s.workers = s.workers.length * f Pc.done :=
  wsum_const f (f Pc.done) s.workers (fun p hp => by rw [h p hp])

/-- Facts about a returned run whose counter cannot wrap. -/
theorem returned_counts {N : Int} {C : Nat} {s : State} (hC : 1 ≤ C) (hshape : ShapeInv C s)
    (hcnt : CounterInv N s) (hdone : s.collectorDone = true) :
    s.requestCounter = max N 0 + C ∧ (s.outcomes.length : Int) = max N 0
      ∧ mapSum s.statusDistribution = max N 0 := by
  obtain ⟨hall, hchan⟩ := returned_allDone hshape hdone
  have h1 := allDone_wsum isDone s hall
  have h2 := allDone_wsum isGet s hall
  have h3 := allDone_wsum isSend s hall
  have h4 := hcnt.doneCount
  have h5 := hcnt.inFlight
  have h6 := hcnt.delivered
  have h7 := hcnt.nonneg
  rw [hshape.len] at h1 h2 h3
  simp only [isDone, isGet, isSend, mul_one, mul_zero] at h1 h2 h3
  rw [hchan] at h6
  simp only [List.length_nil] at h6
  push_cast at h6
  have hC1 : (1 : Int) ≤ C := by exact_mod_cast hC
  omega

theorem buildReport_total (N : Int) (s : State) (t : Int) :
    ∃ r, buildReport N s t = some r := by
  simp only [buildReport, goDiv]
  split_ifs with h1 h2
  all_goals first
    | exact ⟨_, rfl⟩
    | omega

theorem buildReport_fields {N : Int} {s : State} {t : Int} {r : Report}
    (h : buildReport N s t = some r) :
    r.TotalRequests = finalCount N s ∧ r.TotalTime = t ∧ r.SuccessRequests = s.successCount
      ∧ r.StatusDistribution = s.statusDistribution ∧ r.MinDuration = s.minDuration
      ∧ r.MaxDuration = s.maxDuration
      ∧ (0 < finalCount N s →
          r.AvgDuration = wrap64 (Int.tdiv s.totalDuration (finalCount N s)))
      ∧ (¬ 0 < finalCount N s → r.AvgDuration = 0) := by
  by_cases hpos : finalCount N s > 0
  · have hne : ¬ finalCount N s = 0 := by omega
    simp only [buildReport, goDiv, hpos, hne, if_true, if_false, Option.some.injEq] at h
    subst h
    exact ⟨rfl, rfl, rfl, rfl, rfl, rfl, fun _ => rfl, fun hn => absurd hpos hn⟩
  · simp only [buildReport, hpos, if_false, Option.some.injEq] at h
    subst h
    exact ⟨rfl, rfl, rfl, rfl, rfl, rfl, fun hp => absurd hp hpos, fun _ => rfl⟩

theorem performLoadTest_eq {N : Int} {C : Nat} {sched : List Event} {s : State} (t : Int)
    (hexec : exec N C (init C) sched = some s) (hdone : s.collectorDone = true) :
    performLoadTest N C sched t = buildReport N s t := by
  simp [performLoadTest, hexec, hdone]

theorem performLoadTest_some {N : Int} {C : Nat} {sched : List Event} {t : Int} {r : Report}
    (h : performLoadTest N C sched t = some r) :
    ∃ s, exec N C (init C) sched = some s ∧ s.collectorDone = true
      ∧ buildReport N s t = some r := by
  simp only [performLoadTest] at h
  split at h
  · exact absurd h (by simp)
  · rename_i s hs
    split_ifs at h with hd
    exact ⟨s, hs, hd, h⟩

theorem fits_of_nonneg {N : Int} {C : Nat} (hN : 0 ≤ N) (hfit : N + C ≤ maxInt64) :
    Fits N C := by
  unfold Fits
  unfold maxInt64 at *
  omega

theorem fits_of_nonpos {N : Int} {C : Nat} (hN : N ≤ 0) (hfit : (C : Int) ≤ maxInt64) :
    Fits N C := by
  unfold Fits
  unfold maxInt64 at *
  omega

/-! ## Long runs of a single worker

These lemmas build runs in which one worker executes many requests on its own, every
request answered after the same duration.  They are used to reach the states in which the int64
counter has wrapped around. -/

theorem set_eq_self {l : List Pc} {i : Nat} {q : Pc} (h : l[i]? = some q) : l.set i q = l := by
  induction l generalizing i with
  | nil => simp
  | cons a t ih =>
    cases i with
    | zero => simp at h; simp [h]
    | succ j => simp at h; simp [ih h]

theorem get_set_self {l : List Pc} {i : Nat} {q : Pc} (p : Pc) (h : l[i]? = some q) :
    (l.set i p)[i]? = some p := by
  rw [List.getElem?_eq_some] at h
  exact List.getElem?_set_self h.1

theorem solo_once (N : Int) (C : Nat) (i : Nat) (resp : Option Int) (d : Int)
    (hd : minInt64 ≤ d ∧ d ≤ maxInt64) (s : State)
    (hpc : s.workers[i]? = some Pc.claim) (hchan : s.resultChan = [])
    (hrun : s.collectorDone = false) (hC : 0 < C)
    (hacc : wrap64 (s.requestCounter + 1) ≤ N) :
    ∃ sched s1, exec N C s sched = some s1 ∧ s1.workers = s.workers ∧ s1.resultChan = []
      ∧ s1.collectorDone = false ∧ s1.closed = s.closed
      ∧ s1.requestCounter = wrap64 (s.requestCounter + 1)
      ∧ s1.claimLog = s.claimLog ++ [wrap64 (s.requestCounter + 1)]
      ∧ s1.outcomes = s.outcomes ++ [⟨statusOf resp, d⟩]
      ∧ s1.successCount
          = (if statusOf resp = 200 then wrap64 (s.successCount + 1) else s.successCount)
      ∧ s1.totalDuration = wrap64 (s.totalDuration + d)
      ∧ s1.minDuration = min s.minDuration d
      ∧ s1.maxDuration = max s.maxDuration d := by
  have hle : ¬ wrap64 (s.requestCounter + 1) > N := by omega
  have hg := fun (p : Pc) => get_set_self p hpc
  by_cases hmin : d < s.minDuration <;> by_cases hmax : d > s.maxDuration
  · refine ⟨[Event.work i, Event.respond i resp d, Event.work i, Event.collect, Event.work i,
        Event.work i, Event.work i, Event.work i, Event.work i], ?_⟩
    have h1 : min s.minDuration d = d := by omega
    have h2 : max s.maxDuration d = d := by omega
    simp [exec, step, stepWorker, hpc, hle, hd, hg, hchan, hrun, hC, hmin, hmax, List.set_set,
      set_eq_self hpc, h1, h2]
  · refine ⟨[Event.work i, Event.respond i resp d, Event.work i, Event.collect, Event.work i,
        Event.work i, Event.work i, Event.work i], ?_⟩
    have h1 : min s.minDuration d = d := by omega
    have h2 : max s.maxDuration d = s.maxDuration := by omega
    simp [exec, step, stepWorker, hpc, hle, hd, hg, hchan, hrun, hC, hmin, hmax, List.set_set,
      set_eq_self hpc, h1, h2]
  · refine ⟨[Event.work i, Event.respond i resp d, Event.work i, Event.collect, Event.work i,
        Event.work i, Event.work i, Event.work i], ?_⟩
    have h1 : min s.minDuration d = s.minDuration := by omega
    have h2 : max s.maxDuration d = d := by omega
    simp [exec, step, stepWorker, hpc, hle, hd, hg, hchan, hrun, hC, hmin, hmax, List.set_set,
      set_eq_self hpc, h1, h2]
  · refine ⟨[Event.work i, Event.respond i resp d, Event.work i, Event.collect, Event.work i,
        Event.work i, Event.work i], ?_⟩
    have h1 : min s.minDuration d = s.minDuration := by omega
    have h2 : max s.maxDuration d = s.maxDuration := by omega
    simp [exec, step, stepWorker, hpc, hle, hd, hg, hchan, hrun, hC, hmin, hmax, List.set_set,
      set_eq_self hpc, h1, h2]

theorem solo_many (N : Int) (C : Nat) (i : Nat) (resp : Option Int) (d : Int)
    (hd : minInt64 ≤ d ∧ d ≤ maxInt64) (hC : 0 < C) (k : Nat) :
    ∀ (s : State), s.workers[i]? = some Pc.claim → s.resultChan = [] →
      s.collectorDone = false → wrap64 s.requestCounter = s.requestCounter →
      wrap64 s.successCount = s.successCount →
      wrap64 s.totalDuration = s.totalDuration →
      (∀ j : Nat, j < k → wrap64 (s.requestCounter + (j + 1)) ≤ N) →
      ∃ sched s1, exec N C s sched = some s1 ∧ s1.workers = s.workers ∧ s1.resultChan = []
        ∧ s1.collectorDone = false ∧ s1.closed = s.closed
        ∧ s1.requestCounter = wrap64 (s.requestCounter + k)
        ∧ s1.claimLog
            = s.claimLog
                ++ (List.range k).map (fun (j : Nat) => wrap64 (s.requestCounter + ((j : Int) + 1)))
        ∧ s1.outcomes = s.outcomes ++ List.replicate k ⟨statusOf resp, d⟩
        ∧ s1.successCount
            = (if statusOf resp = 200 then wrap64 (s.successCount + k) else s.successCount)
        ∧ s1.totalDuration = wrap64 (s.totalDuration + k * d)
        ∧ s1.minDuration = (if k = 0 then s.minDuration else min s.minDuration d)
        ∧ s1.maxDuration = (if k = 0 then s.maxDuration else max s.maxDuration d) := by
  induction k with
  | zero =>
    intro s hpc hchan hrun hcr hsr htr _
    refine ⟨[], s, rfl, rfl, hchan, hrun, rfl, ?_, ?_, ?_, ?_, ?_, rfl, rfl⟩
    · simpa using hcr.symm
    · simp
    · simp
    · split_ifs
      · simpa using hsr.symm
      · rfl
    · simpa using htr.symm
  | succ k ih =>
    intro s hpc hchan hrun hcr hsr htr hacc
    obtain ⟨a, s1, hexec, hw, hch, hr, hcl, hc, hlog, hout, hsucc, htot, hmn, hmx⟩ :=
      ih s hpc hchan hrun hcr hsr htr (fun j hj => hacc j (by omega))
    have hstep : wrap64 (s1.requestCounter + 1) = wrap64 (s.requestCounter + ((k : Int) + 1)) := by
      rw [hc, wrap64_add_wrap64, add_assoc]
    have hacc1 : wrap64 (s1.requestCounter + 1) ≤ N := by
      rw [hstep]
      exact hacc k (by omega)
    obtain ⟨b, s2, hexec2, hw2, hch2, hr2, hcl2, hc2, hlog2, hout2, hsucc2, htot2, hmn2, hmx2⟩ :=
      solo_once N C i resp d hd s1 (by rw [hw]; exact hpc) hch hr hC hacc1
    refine ⟨a ++ b, s2, exec_trans hexec hexec2, by rw [hw2, hw], hch2, hr2, by rw [hcl2, hcl],
      ?_, ?_, ?_, ?_, ?_, ?_, ?_⟩
    · rw [hc2, hstep]
      push_cast
      rfl
    · rw [hlog2, hlog, hstep, List.range_succ, List.map_append, List.append_assoc]
      rfl
    · rw [hout2, hout, List.replicate_succ', List.append_assoc]
    · rw [hsucc2, hsucc]
      split_ifs
      · rw [wrap64_add_wrap64, add_assoc]
        push_cast
        rfl
      · rfl
    · rw [htot2, htot, wrap64_add_wrap64]
      congr 1
      push_cast
      ring
    · rw [hmn2, hmn]
      simp only [Nat.succ_ne_zero, if_false]
      split_ifs <;> omega
    · rw [hmx2, hmx]
      simp only [Nat.succ_ne_zero, if_false]
      split_ifs <;> omega

/-! ## Tickets -/

theorem mem_tickets (c t : Int) : t ∈ tickets c ↔ 1 ≤ t ∧ t ≤ c := by
  simp only [tickets, List.mem_map, List.mem_range]
  constructor
  · rintro ⟨j, hj, rfl⟩
    omega
  · rintro ⟨h1, h2⟩
    exact ⟨(t - 1).toNat, by omega, by omega⟩

theorem pairwise_tickets (c : Int) : (tickets c).Pairwise (fun a b => a < b) := by
  simp only [tickets, List.pairwise_map]
  exact List.Pairwise.imp (fun h => by omega) (List.pairwise_lt_range _)

theorem nodup_tickets (c : Int) : (tickets c).Nodup :=
  List.Pairwise.imp (fun h => ne_of_lt h) (pairwise_tickets c)

theorem tickets_congr (a b : Int) (h : a.toNat = b.toNat) : tickets a = tickets b := by
  simp only [tickets, h]

theorem filter_tickets (N : Int) (n : Nat) :
    (tickets n).filter (fun t => decide (t ≤ N)) = tickets (min (n : Int) (max N 0)) := by
  induction n with
  | zero =>
    have h : min ((0 : Nat) : Int) (max N 0) = 0 := by omega
    rw [h]
    simp [tickets]
  | succ k ih =>
    have hk : (0 : Int) ≤ k := by omega
    have hs : ((k + 1 : Nat) : Int) = (k : Int) + 1 := by push_cast; rfl
    rw [hs, tickets_succ _ hk, List.filter_append, ih]
    by_cases hle : (k : Int) + 1 ≤ N
    · have h1 : min (k : Int) (max N 0) = k := by omega
      have h2 : min ((k : Int) + 1) (max N 0) = k + 1 := by omega
      rw [h1, h2, tickets_succ _ hk]
      simp [hle]
    · have h1 : min ((k : Int) + 1) (max N 0) = min (k : Int) (max N 0) := by omega
      rw [h1]
      simp [hle]

theorem accepted_eq {N : Int} {s : State} (hcnt : CounterInv N s) :
    accepted N s = tickets (min s.requestCounter (max N 0)) := by
  have h := filter_tickets N s.requestCounter.toNat
  have hc : ((s.requestCounter.toNat : Nat) : Int) = s.requestCounter :=
    Int.toNat_of_nonneg hcnt.nonneg
  rw [hc] at h
  simp only [accepted, hcnt.log]
  exact h

theorem allDone_counter {N : Int} {C : Nat} {s : State} (hC : 1 ≤ C) (hshape : ShapeInv C s)
    (hcnt : CounterInv N s) (hall : AllDone s) : s.requestCounter = max N 0 + C := by
  have h1 := allDone_wsum isDone s hall
  have h4 := hcnt.doneCount
  rw [hshape.len] at h1
  simp only [isDone, mul_one] at h1
  have hC1 : (1 : Int) ≤ C := by exact_mod_cast hC
  omega

/-! ## Extremes at the return -/

theorem allDone_extremes {s : State} (hall : AllDone s) (hagg : AggInv s)
    (hext : ExtremeInv s) (hone : s.outcomes ≠ [])
    (hnn : ∀ d ∈ durations s.outcomes, 0 ≤ d) :
    s.minDuration ∈ durations s.outcomes ∧ (∀ d ∈ durations s.outcomes, s.minDuration ≤ d)
      ∧ s.maxDuration ∈ durations s.outcomes
      ∧ (∀ d ∈ durations s.outcomes, d ≤ s.maxDuration) := by
  have hlow : ∀ d ∈ durations s.outcomes, s.minDuration ≤ d := by
    intro d hd
    rcases hext.minLow d hd with h | ⟨p, hp, hb⟩
    · exact h
    · rw [hall p hp] at hb
      exact absurd hb (by simp [beforeMin])
  have hhigh : ∀ d ∈ durations s.outcomes, d ≤ s.maxDuration := by
    intro d hd
    rcases hext.maxHigh d hd with h | ⟨p, hp, hb⟩
    · exact h
    · rw [hall p hp] at hb
      exact absurd hb (by simp [beforeMax])
  obtain ⟨r0, t0, hr0⟩ := List.exists_cons_of_ne_nil hone
  have hmem : r0.Duration ∈ durations s.outcomes := by
    simp [durations, hr0]
  have hrange := hagg.inRange r0 (by simp [hr0])
  refine ⟨?_, hlow, ?_, hhigh⟩
  · rcases hext.minSeen with h | h
    · have h1 := hlow _ hmem
      have h2 : r0.Duration = s.minDuration := by omega
      exact h2 ▸ hmem
    · exact h
  · rcases hext.maxSeen with h | h
    · have h1 := hhigh _ hmem
      have h0 := hnn _ hmem
      have h2 : r0.Duration = s.maxDuration := by omega
      exact h2 ▸ hmem
    · exact h

/-! ## Integer division of an int64 by a positive int64 -/

theorem tdiv_le_of_nonneg (a b : Int) (ha : 0 ≤ a) (hb : 0 ≤ b) : Int.tdiv a b ≤ a := by
  rw [Int.tdiv_eq_ediv ha hb]
  exact Int.ediv_le_self b ha

theorem tdiv_fits (a b : Int) (ha1 : minInt64 ≤ a) (ha2 : a ≤ maxInt64) (hb : 0 < b) :
    wrap64 (Int.tdiv a b) = Int.tdiv a b := by
  apply wrap64_of_fits
  · rcases le_or_lt 0 a with h | h
    · have := Int.tdiv_nonneg h (le_of_lt hb)
      unfold minInt64; omega
    · have h1 : Int.tdiv a b = -(Int.tdiv (-a) b) := by
        rw [Int.neg_tdiv, neg_neg]
      have h2 : Int.tdiv (-a) b ≤ -a := tdiv_le_of_nonneg (-a) b (by omega) (le_of_lt hb)
      omega
  · rcases le_or_lt 0 a with h | h
    · have := tdiv_le_of_nonneg a b h (le_of_lt hb)
      omega
    · have h1 : Int.tdiv a b = -(Int.tdiv (-a) b) := by
        rw [Int.neg_tdiv, neg_neg]
      have h2 : 0 ≤ Int.tdiv (-a) b := Int.tdiv_nonneg (by omega) (le_of_lt hb)
      unfold maxInt64; omega

/-- Nothing is executed when `totalRequests ≤ 0`. -/
theorem idle_state {N : Int} {s : State} (hN : N ≤ 0) (hcnt : CounterInv N s)
    (hagg : AggInv s) (hext : ExtremeInv s) :
    s.outcomes = [] ∧ s.statusDistribution = [] ∧ s.minDuration = maxInt64
      ∧ s.maxDuration = 0 ∧ s.successCount = 0 := by
  have h1 := hcnt.inFlight
  have h2 := hcnt.nonneg
  have h3 := (wsum_bounds isGet isGet_bounds s.workers).1
  have h4 := hcnt.delivered
  have h5 := (wsum_bounds isSend isSend_bounds s.workers).1
  have h6 := mapSum_nonneg _ hcnt.counts
  have hlen : s.outcomes.length = 0 := by omega
  have hout : s.outcomes = [] := List.eq_nil_of_length_eq_zero hlen
  have hdist : s.statusDistribution = [] := by
    apply mapSum_zero _ hcnt.counts
    rw [hlen] at h4
    push_cast at h4
    omega
  refine ⟨hout, hdist, ?_, ?_, ?_⟩
  · rcases hext.minSeen with h | h
    · exact h
    · simp [hout, durations] at h
  · rcases hext.maxSeen with h | h
    · exact h
    · simp [hout, durations] at h
  · rw [hagg.success, hdist]
    rfl

/-! ## One outcome per accepted ticket -/

theorem accepted_snoc (N : Int) (s : State) (v : Int) (log : List Int)
    (h : log = s.claimLog ++ [v]) :
    ((log.filter (fun t => decide (t ≤ N))).length : Int)
      = (accepted N s).length + (if v ≤ N then 1 else 0) := by
  subst h
  simp only [accepted, List.filter_append, List.length_append]
  by_cases hv : v ≤ N
  · simp [hv]
  · simp [hv]

theorem ticket_outcome_step {N : Int} {C : Nat} {s s1 : State}
    (hi : ((accepted N s).length : Int) = s.outcomes.length + wsum isGet s.workers)
    (h : Step N C s s1) :
    ((accepted N s1).length : Int) = s1.outcomes.length + wsum isGet s1.workers := by
  cases h
  case claimReject i hpc hgt =>
    have h1 := accepted_snoc N s (wrap64 (s.requestCounter + 1)) _ rfl
    have h2 : ¬ wrap64 (s.requestCounter + 1) ≤ N := by omega
    simp only [h2, if_false] at h1
    simp only [accepted] at h1 hi ⊢
    simp only [wsum_set _ _ _ _ _ hpc, isGet]
    omega
  case claimAccept i hpc hle =>
    have h1 := accepted_snoc N s (wrap64 (s.requestCounter + 1)) _ rfl
    have h2 : wrap64 (s.requestCounter + 1) ≤ N := by omega
    simp only [h2, if_true] at h1
    simp only [accepted] at h1 hi ⊢
    simp only [wsum_set _ _ _ _ _ hpc, isGet]
    omega
  case respond i resp dur hpc hdur =>
    simp only [accepted] at hi ⊢
    simp only [wsum_set _ _ _ _ _ hpc, isGet, List.length_append, List.length_singleton]
    push_cast
    omega
  case collect r rest hrun hchan => exact hi
  case close hopen hall => exact hi
  case collectorExit hclosed hrun hempty => exact hi
  all_goals
    simp only [accepted] at hi ⊢
    simp only [wsum_set _ _ _ _ _ ‹_›, isGet]
    omega

theorem ticket_outcome_reachable {N : Int} {C : Nat} {s : State} (h : Reachable N C s) :
    ((accepted N s).length : Int) = s.outcomes.length + wsum isGet s.workers :=
  reachable_invariant
    (fun s => ((accepted N s).length : Int) = s.outcomes.length + wsum isGet s.workers)
    (by simp [init, accepted, wsum_replicate_claim isGet C rfl])
    (fun _ _ hi hs => ticket_outcome_step hi hs) h

theorem countStatus_bounds (k : Int) (l : List LoadTestResult) :
    0 ≤ countStatus k l ∧ countStatus k l ≤ l.length := by
  induction l with
  | nil => simp [countStatus]
  | cons a t ih =>
    rw [countStatus_cons]
    simp only [List.length_cons]
    push_cast
    split_ifs <;> omega

/-! ## Sums of durations -/

theorem sum_ge_of_forall_ge (a : Int) (l : List Int) (h : ∀ d ∈ l, a ≤ d) :
    l.length * a ≤ l.sum := by
  induction l with
  | nil => simp
  | cons x t ih =>
    have hx := h x (by simp)
    have ht := ih (fun d hd => h d (by simp [hd]))
    simp only [List.length_cons, List.sum_cons]
    push_cast
    linarith

theorem sum_le_of_forall_le (a : Int) (l : List Int) (h : ∀ d ∈ l, d ≤ a) :
    l.sum ≤ l.length * a := by
  induction l with
  | nil => simp
  | cons x t ih =>
    have hx := h x (by simp)
    have ht := ih (fun d hd => h d (by simp [hd]))
    simp only [List.length_cons, List.sum_cons]
    push_cast
    linarith

theorem sumDur_eq (l : List LoadTestResult) : sumDur l = (durations l).sum := rfl

theorem durations_length (l : List LoadTestResult) : (durations l).length = l.length := by
  simp [durations]

theorem wrap64_idem (x : Int) : wrap64 (wrap64 x) = wrap64 x := by
  unfold wrap64; omega

/-! ## Claims -/

/-- C1 (amended): for `totalRequests = N ≥ 0` and `concurrency = C ≥ 1` with
`N + C ≤ 2^63 - 1`, under every interleaving: a run takes at most
`N * (4 * C + 9) + C + 2` transitions, a run that has not returned can always take
another transition and extends to a run that returns, and at the return exactly `N`
requests have been executed, the values of `StatusDistribution` sum to `N`,
`TotalRequests` is `N`, while `requestCounter` has ended at `N + C`, above `N`. -/
theorem exactly_totalRequests_executed (N : Int) (C : Nat) (hN : 0 ≤ N) (hC : 1 ≤ C)
    (hfit : N + C ≤ maxInt64) (sched : List Event) (s : State)
    (hexec : exec N C (init C) sched = some s) :
    (sched.length : Int) ≤ N * (4 * C + 9) + C + 2
      ∧ (s.collectorDone = false → ∃ e s1, step N C s e = some s1)
      ∧ (∃ more s1, exec N C (init C) (sched ++ more) = some s1 ∧ s1.collectorDone = true)
      ∧ (s.collectorDone = true →
          s.requestCounter = N + C ∧ N < s.requestCounter ∧ (s.outcomes.length : Int) = N
          ∧ ∀ t, ∃ r, performLoadTest N C sched t = some r
              ∧ mapSum r.StatusDistribution = N ∧ r.TotalRequests = N) := by
  have hF := fits_of_nonneg hN hfit
  have hreach : Reachable N C s := ⟨sched, hexec⟩
  have hshape := shapeInv_reachable hreach
  have hcnt := counterInv_reachable hF hreach
  have hmax : max N 0 = N := max_eq_left hN
  refine ⟨?_, ?_, run_extends hF hexec, ?_⟩
  · have h1 := exec_bounded hF sched _ _ (shapeInv_init C) (counterInv_init N C) hexec
    have h2 := measure_nonneg N C s
    rw [measure_init, hmax] at h1
    omega
  · exact fun hrun => progress N C s hshape.len hrun
  · intro hdone
    obtain ⟨h1, h2, h3⟩ := returned_counts hC hshape hcnt hdone
    rw [hmax] at h1 h2 h3
    have hC1 : (1 : Int) ≤ C := by exact_mod_cast hC
    refine ⟨h1, by omega, h2, ?_⟩
    intro t
    obtain ⟨r, hr⟩ := buildReport_total N s t
    refine ⟨r, by rw [performLoadTest_eq t hexec hdone, hr], ?_, ?_⟩
    · rw [(buildReport_fields hr).2.2.2.1, h3]
    · rw [(buildReport_fields hr).1]
      simp only [finalCount]
      split_ifs <;> omega

/-- C1, a concrete run: two requests on one worker. -/
theorem exactly_totalRequests_executed_witness :
    exec 2 1 (init 1) twoRequestRun = some twoRequestEnd
      ∧ twoRequestEnd.requestCounter = 2 + (1 : Nat)
      ∧ (twoRequestEnd.outcomes.length : Int) = 2
      ∧ ∃ r, performLoadTest 2 1 twoRequestRun 100 = some r
          ∧ mapSum r.StatusDistribution = 2 ∧ r.TotalRequests = 2 :=
  have h := exactly_totalRequests_executed 2 1 (by decide) (by decide) (by decide)
    twoRequestRun twoRequestEnd (by decide)
  ⟨by decide, (h.2.2.2 rfl).1, (h.2.2.2 rfl).2.2.1, (h.2.2.2 rfl).2.2.2 100⟩

/-- With `totalRequests = 2^63 - 1` no claim is ever rejected: no worker leaves its loop,
the channel is never closed and the collector never leaves. -/
theorem never_done_at_maxInt64 {C : Nat} {s s1 : State}
    (hi : s.closed = false ∧ s.collectorDone = false ∧ s.workers ≠ []
      ∧ ∀ p ∈ s.workers, p ≠ Pc.done)
    (h : Step maxInt64 C s s1) :
    s1.closed = false ∧ s1.collectorDone = false ∧ s1.workers ≠ []
      ∧ ∀ p ∈ s1.workers, p ≠ Pc.done := by
  obtain ⟨hc, hd, hne, hw⟩ := hi
  cases h
  case claimReject i hpc hgt =>
    have := (wrap64_range (s.requestCounter + 1)).2
    omega
  case collect r rest hrun hchan => exact ⟨hc, hd, hne, hw⟩
  case close hopen hall =>
    cases hl : s.workers with
    | nil => exact absurd hl hne
    | cons a t => exact absurd (hall a (by simp [hl])) (hw a (by simp [hl]))
  case collectorExit hclosed hrun hempty =>
    rw [hc] at hclosed
    exact absurd hclosed (by simp)
  all_goals
    refine ⟨hc, hd, ?_, ?_⟩
    · intro h0
      exact hne (by simpa using h0)
    · exact forall_set (fun p => p ≠ Pc.done) _ _ _ hw (by simp)

/-- C1 as stated fails at `totalRequests = 2^63 - 1`, `concurrency = 1`: the counter
wraps to `-2^63` instead of exceeding `totalRequests`, so no schedule carries
`performLoadTest` to its return, and there is a run in which `2^63`, one more than
`totalRequests`, requests have been executed. -/
theorem exactly_totalRequests_counterexample :
    (∀ sched t, performLoadTest maxInt64 1 sched t = none)
      ∧ ∃ sched s, exec maxInt64 1 (init 1) sched = some s
          ∧ (s.outcomes.length : Int) = maxInt64 + 1 := by
  constructor
  · intro sched t
    cases hr : performLoadTest maxInt64 1 sched t with
    | none => rfl
    | some r =>
      obtain ⟨s, hs, hd, _⟩ := performLoadTest_some hr
      have hinv := reachable_invariant
        (fun s => s.closed = false ∧ s.collectorDone = false ∧ s.workers ≠ []
          ∧ ∀ p ∈ s.workers, p ≠ Pc.done)
        (by simp [init]) (fun _ _ hi hst => never_done_at_maxInt64 hi hst) ⟨sched, hs⟩
      rw [hinv.2.1] at hd
      exact absurd hd (by simp)
  · obtain ⟨sched, s, hexec, _, _, _, _, _, _, hout, _, _⟩ :=
      solo_many maxInt64 1 0 (some 200) 0 (by decide) (by decide) 9223372036854775808 (init 1)
        (by simp [init]) rfl rfl (by decide) (by decide) (by decide)
        (fun j _ => (wrap64_range _).2)
    refine ⟨sched, s, hexec, ?_⟩
    rw [hout, List.length_append, List.length_replicate]
    simp [init, maxInt64]

/-- C2 (amended): when the counter cannot wrap (`totalRequests + concurrency ≤ 2^63 - 1`),
under every interleaving of any number of workers the accepted tickets are at each
moment `1, 2, ..., min requestCounter totalRequests` without repetition, and once
every worker has left its loop they are exactly the integers `1..totalRequests`, each
claimed exactly once. -/
theorem tickets_claimed_exactly_once (N : Int) (C : Nat) (hC : 1 ≤ C) (hfit : Fits N C)
    (sched : List Event) (s : State) (hexec : exec N C (init C) sched = some s) :
    accepted N s = tickets (min s.requestCounter (max N 0))
      ∧ (accepted N s).Nodup
      ∧ (∀ t ∈ accepted N s, 1 ≤ t ∧ t ≤ N)
      ∧ (AllDone s → accepted N s = tickets N
          ∧ (∀ t, t ∈ accepted N s ↔ 1 ≤ t ∧ t ≤ N)
          ∧ ∀ t, 1 ≤ t → t ≤ N → (accepted N s).count t = 1) := by
  have hreach : Reachable N C s := ⟨sched, hexec⟩
  have hshape := shapeInv_reachable hreach
  have hcnt := counterInv_reachable hfit hreach
  have hacc := accepted_eq hcnt
  refine ⟨hacc, hacc ▸ nodup_tickets _, ?_, ?_⟩
  · intro t ht
    rw [hacc, mem_tickets] at ht
    omega
  · intro hall
    have hc := allDone_counter hC hshape hcnt hall
    have hfin : accepted N s = tickets N := by
      rw [hacc]
      apply tickets_congr
      omega
    refine ⟨hfin, fun t => by rw [hfin, mem_tickets], ?_⟩
    intro t h1 h2
    rw [hfin]
    exact List.count_eq_one_of_mem (nodup_tickets N) ((mem_tickets N t).mpr ⟨h1, h2⟩)

/-- C2, a concrete run: two workers claim concurrently, tickets 1 and 2 are accepted. -/
theorem tickets_claimed_exactly_once_witness :
    exec 2 2 (init 2) contendedRun = some contendedEnd
      ∧ accepted 2 contendedEnd = [1, 2]
      ∧ (accepted 2 contendedEnd).Nodup
      ∧ ∀ t, t ∈ accepted 2 contendedEnd ↔ 1 ≤ t ∧ t ≤ 2 :=
  have h := tickets_claimed_exactly_once 2 2 (by decide) ⟨by decide, by decide⟩
    contendedRun contendedEnd (by decide)
  ⟨by decide, by decide, h.2.1, (h.2.2.2 (by simp [AllDone, contendedEnd])).2.1⟩

/-- C2 as stated fails at `totalRequests = 2^63 - 1`, `concurrency = 2`: after `2^63`
claims the counter has wrapped and the value `-2^63`, which is not a ticket of
`1..totalRequests`, is accepted. -/
theorem tickets_claimed_counterexample :
    ∃ sched s, exec maxInt64 2 (init 2) sched = some s
      ∧ minInt64 ∈ accepted maxInt64 s ∧ ¬ (1 ≤ minInt64) := by
  obtain ⟨sched, s, hexec, _, _, _, _, _, hlog, _, _, _⟩ :=
    solo_many maxInt64 2 0 (some 200) 0 (by decide) (by decide) 9223372036854775808 (init 2)
      (by simp [init]) rfl rfl (by decide) (by decide) (by decide)
      (fun j _ => (wrap64_range _).2)
  refine ⟨sched, s, hexec, ?_, by decide⟩
  simp only [accepted, List.mem_filter, hlog]
  refine ⟨?_, by decide⟩
  apply List.mem_append_right
  rw [List.mem_map]
  exact ⟨9223372036854775807, List.mem_range.mpr (by decide), by decide⟩

/-- Once a claim has been rejected, a transition of a run whose counter cannot wrap
accepts no ticket, and every value it adds to the claim log is above `totalRequests`. -/
theorem exhausted_step {N : Int} {C : Nat} {s s1 : State} (hfit : Fits N C)
    (hshape : ShapeInv C s) (hcnt : CounterInv N s) (hex : ∃ v ∈ s.claimLog, v > N)
    (hst : Step N C s s1) :
    accepted N s1 = accepted N s ∧ (∀ u ∈ s1.claimLog, u ∈ s.claimLog ∨ u > N)
      ∧ ∀ v ∈ s.claimLog, v ∈ s1.claimLog := by
  obtain ⟨v, hv, hgt⟩ := hex
  rw [hcnt.log, mem_tickets] at hv
  cases hst
  case claimReject i hpc hgt1 =>
    refine ⟨?_, ?_, fun u hu => List.mem_append_left _ hu⟩
    · simp only [accepted, List.filter_append, List.filter_cons, List.filter_nil]
      have : ¬ wrap64 (s.requestCounter + 1) ≤ N := by omega
      simp [this]
    · intro u hu
      simp only [List.mem_append, List.mem_singleton] at hu
      rcases hu with h | h
      · exact Or.inl h
      · exact Or.inr (h ▸ hgt1)
  case claimAccept i hpc hle =>
    rw [counter_room hfit hshape hcnt hpc] at hle
    omega
  all_goals exact ⟨rfl, fun u hu => Or.inl hu, fun u hu => hu⟩

/-- Once a claim has been rejected, no continuation of a run whose counter cannot wrap
accepts a ticket. -/
theorem exhausted_run {N : Int} {C : Nat} (hfit : Fits N C) :
    ∀ (more : List Event) (s s2 : State), ShapeInv C s → CounterInv N s →
      (∃ v ∈ s.claimLog, v > N) → exec N C s more = some s2 →
      accepted N s2 = accepted N s ∧ ∀ u ∈ s2.claimLog, u ∈ s.claimLog ∨ u > N := by
  intro more
  induction more with
  | nil =>
    intro s s2 _ _ _ h
    simp [exec] at h
    subst h
    exact ⟨rfl, fun u hu => Or.inl hu⟩
  | cons e es ih =>
    intro s s2 hsh hc hex h
    simp only [exec] at h
    split at h
    · exact absurd h (by simp)
    · rename_i s1 he
      have hst := step_sound he
      obtain ⟨h1, h2, h3⟩ := exhausted_step hfit hsh hc hex hst
      obtain ⟨v, hv, hgt⟩ := hex
      obtain ⟨h4, h5⟩ := ih s1 s2 (shapeInv_step hsh hst) (counterInv_step hfit hsh hc hst)
        ⟨v, h3 v hv, hgt⟩ h
      refine ⟨by rw [h4, h1], ?_⟩
      intro u hu
      rcases h5 u hu with h | h
      · exact h2 u h
      · exact Or.inr h

/-- C9 (amended): when the counter cannot wrap (`totalRequests + concurrency ≤ 2^63 - 1`),
`requestCounter` never decreases, every claim made after a claim that returned a value
above `totalRequests` also returns a value above `totalRequests`, and from then on no
transition and no continuation of the run accepts a further ticket: the requests
executed afterwards are exactly the GETs that were in flight at that moment. -/
theorem exhaustion_is_permanent (N : Int) (C : Nat) (hfit : Fits N C)
    (sched : List Event) (s : State) (hexec : exec N C (init C) sched = some s) :
    (∀ e s1, step N C s e = some s1 → s.requestCounter ≤ s1.requestCounter)
      ∧ (∀ a v b, s.claimLog = a ++ v :: b → v > N → ∀ u ∈ b, u > N)
      ∧ ((∃ v ∈ s.claimLog, v > N) → ∀ e s1, step N C s e = some s1 →
          accepted N s1 = accepted N s ∧ ∀ u ∈ s1.claimLog, u ∈ s.claimLog ∨ u > N)
      ∧ ((∃ v ∈ s.claimLog, v > N) → ∀ more s2, exec N C s more = some s2 →
          accepted N s2 = accepted N s
          ∧ (∀ u ∈ s2.claimLog, u ∈ s.claimLog ∨ u > N)
          ∧ (s2.outcomes.length : Int) + wsum isGet s2.workers
              = s.outcomes.length + wsum isGet s.workers) := by
  have hreach : Reachable N C s := ⟨sched, hexec⟩
  have hshape := shapeInv_reachable hreach
  have hcnt := counterInv_reachable hfit hreach
  refine ⟨?_, ?_, ?_, ?_⟩
  · intro e s1 hstep
    have hst := step_sound hstep
    cases hst
    case claimReject i hpc hgt =>
      simp only [counter_room hfit hshape hcnt hpc]; omega
    case claimAccept i hpc hle =>
      simp only [counter_room hfit hshape hcnt hpc]; omega
    all_goals exact le_refl _
  · intro a v b hlog hv u hu
    have hp := pairwise_tickets s.requestCounter
    rw [← hcnt.log, hlog, List.pairwise_append] at hp
    have := (List.pairwise_cons.mp hp.2.1).1 u hu
    omega
  · intro hex e s1 hstep
    have h := exhausted_step hfit hshape hcnt hex (step_sound hstep)
    exact ⟨h.1, h.2.1⟩
  · intro hex more s2 hmore
    obtain ⟨h1, h2⟩ := exhausted_run hfit more s s2 hshape hcnt hex hmore
    have hreach2 : Reachable N C s2 := ⟨sched ++ more, exec_trans hexec hmore⟩
    have ht := ticket_outcome_reachable hreach
    have ht2 := ticket_outcome_reachable hreach2
    rw [h1] at ht2
    exact ⟨h1, h2, by omega⟩

/-- C9, a concrete run: worker 1 is rejected with 2, the later claim of worker 0 returns
3; after the rejection no ticket is accepted and the one request executed is the GET
of worker 0 that was in flight. -/
theorem exhaustion_is_permanent_witness :
    (exec 1 2 (init 2) twoWorkerRun = some twoWorkerEnd
      ∧ twoWorkerEnd.claimLog = [1] ++ 2 :: [3]
      ∧ ∀ u ∈ [(3 : Int)], u > 1)
    ∧ (exec 1 2 (init 2) [Event.work 0, Event.work 1] = some twoWorkerMid
      ∧ (2 : Int) ∈ twoWorkerMid.claimLog
      ∧ exec 1 2 twoWorkerMid (twoWorkerRun.drop 2) = some twoWorkerEnd
      ∧ accepted 1 twoWorkerEnd = accepted 1 twoWorkerMid
      ∧ (twoWorkerEnd.outcomes.length : Int) + wsum isGet twoWorkerEnd.workers
          = twoWorkerMid.outcomes.length + wsum isGet twoWorkerMid.workers) :=
  have h := exhaustion_is_permanent 1 2 ⟨by decide, by decide⟩ twoWorkerRun twoWorkerEnd
    (by decide)
  have hm := exhaustion_is_permanent 1 2 ⟨by decide, by decide⟩
    [Event.work 0, Event.work 1] twoWorkerMid (by decide)
  have hrest := hm.2.2.2 ⟨2, by decide, by decide⟩ (twoWorkerRun.drop 2) twoWorkerEnd
    (by decide)
  ⟨⟨by decide, rfl, h.2.1 [1] 2 [3] rfl (by decide)⟩,
    ⟨by decide, by decide, by decide, hrest.1, hrest.2.2⟩⟩

/-- C9 as stated fails in two ways.  At `totalRequests = 2^63 - 2`, `concurrency = 2`:
worker 0 is rejected with the value `2^63 - 1`, the next claim, by worker 1, wraps the
counter to `-2^63`, which is not above `totalRequests`, and is accepted.  And without
any wrap, at `totalRequests = 1`, `concurrency = 2`: worker 1 is rejected with the
value 2 while the GET of worker 0 is still in flight, and that request is executed
after the exhaustion. -/
theorem exhaustion_counterexample :
    (∃ sched s a, exec (maxInt64 - 1) 2 (init 2) sched = some s
      ∧ s.claimLog = a ++ [maxInt64, minInt64]
      ∧ maxInt64 > maxInt64 - 1 ∧ ¬ (minInt64 > maxInt64 - 1)
      ∧ s.workers = [Pc.done, Pc.get])
    ∧ (exec 1 2 (init 2) [Event.work 0, Event.work 1] = some twoWorkerMid
      ∧ (2 : Int) ∈ twoWorkerMid.claimLog ∧ (2 : Int) > 1
      ∧ twoWorkerMid.outcomes = []
      ∧ step 1 2 twoWorkerMid (Event.respond 0 (some 200) 4)
          = some { twoWorkerMid with workers := [Pc.send 200 4, Pc.done],
                                     outcomes := [⟨200, 4⟩] }
      ∧ (1 : Int) + (2 : Nat) ≤ maxInt64) := by
  refine ⟨?_, by decide, by decide, by decide, by decide, by decide, by decide⟩
  obtain ⟨sched, s1, hexec, hw, hch, hr, hcl, hc, hlog, _, _, _⟩ :=
    solo_many (maxInt64 - 1) 2 0 (some 200) 0 (by decide) (by decide) 9223372036854775806
      (init 2) (by simp [init]) rfl rfl (by decide) (by decide) (by decide)
      (fun j hj => by
        simp only [init, wrap64, maxInt64]
        omega)
  have hw1 : s1.workers = [Pc.claim, Pc.claim] := by rw [hw]; rfl
  have hc1 : s1.requestCounter = 9223372036854775806 := by rw [hc]; decide
  have h2 : exec (maxInt64 - 1) 2 s1 [Event.work 0, Event.work 1]
      = some { s1 with requestCounter := minInt64,
                       claimLog := s1.claimLog ++ [maxInt64] ++ [minInt64],
                       workers := [Pc.done, Pc.get] } := by
    have e1 : wrap64 9223372036854775807 = maxInt64 := by decide
    have e2 : wrap64 (maxInt64 + 1) = minInt64 := by decide
    have e3 : maxInt64 - 1 < maxInt64 := by decide
    have e4 : ¬ (maxInt64 - 1 < minInt64) := by decide
    simp [exec, step, stepWorker, hw1, hc1, e1, e2, e3, e4]
  refine ⟨sched ++ [Event.work 0, Event.work 1], _, s1.claimLog, exec_trans hexec h2, ?_,
    by decide, by decide, rfl⟩
  simp

/-- C4: in every run that returns with at least one executed request and non-negative
durations, whatever the interleaving of the compare-and-swap loops, `MinDuration` is an
observed duration and no observed duration is below it, `MaxDuration` is an observed
duration and no observed duration is above it. -/
theorem extremes_are_observed (N : Int) (C : Nat) (sched : List Event) (t : Int)
    (r : Report) (s : State) (hexec : exec N C (init C) sched = some s)
    (hret : performLoadTest N C sched t = some r) (hone : s.outcomes ≠ [])
    (hnn : ∀ d ∈ durations s.outcomes, 0 ≤ d) :
    r.MinDuration ∈ durations s.outcomes
      ∧ (∀ d ∈ durations s.outcomes, r.MinDuration ≤ d)
      ∧ r.MaxDuration ∈ durations s.outcomes
      ∧ (∀ d ∈ durations s.outcomes, d ≤ r.MaxDuration) := by
  obtain ⟨s1, hs1, hdone, hrep⟩ := performLoadTest_some hret
  have hs : s1 = s := by
    rw [hexec] at hs1
    exact (Option.some.inj hs1).symm
  subst hs
  have hreach : Reachable N C s1 := ⟨sched, hexec⟩
  have hall := (returned_allDone (shapeInv_reachable hreach) hdone).1
  have hf := buildReport_fields hrep
  rw [hf.2.2.2.2.1, hf.2.2.2.2.2.1]
  exact allDone_extremes hall (aggInv_reachable hreach) (extremeInv_reachable hreach) hone hnn

/-- C4, a concrete run with both loops contended: durations 5 and 3 give
`MinDuration = 3` and `MaxDuration = 5`. -/
theorem extremes_are_observed_witness :
    exec 2 2 (init 2) contendedRun = some contendedEnd
      ∧ performLoadTest 2 2 contendedRun 100 = some contendedReport
      ∧ durations contendedEnd.outcomes = [5, 3]
      ∧ contendedReport.MinDuration ∈ durations contendedEnd.outcomes
      ∧ (∀ d ∈ durations contendedEnd.outcomes, contendedReport.MinDuration ≤ d)
      ∧ contendedReport.MaxDuration ∈ durations contendedEnd.outcomes
      ∧ (∀ d ∈ durations contendedEnd.outcomes, d ≤ contendedReport.MaxDuration) :=
  ⟨by decide, by decide, by decide,
    extremes_are_observed 2 2 contendedRun 100 contendedReport contendedEnd
      (by decide) (by decide) (by decide) (by decide)⟩

/-- C10: for `totalRequests ≤ 0` and any `concurrency` (an int64 value) every run takes at
most `concurrency + 2` transitions and extends to a run that returns, no request is
ever executed, and the report
carries the seeds: `MinDuration = 2^63 - 1`, `MaxDuration = 0`, so
`MinDuration > MaxDuration`, with an empty `StatusDistribution` and
`SuccessRequests = 0`. -/
theorem seeds_leak_when_nothing_runs (N : Int) (C : Nat) (hN : N ≤ 0)
    (hmax : (C : Int) ≤ maxInt64) (sched : List Event) (s : State)
    (hexec : exec N C (init C) sched = some s) :
    (sched.length : Int) ≤ C + 2
      ∧ (s.collectorDone = false → ∃ e s1, step N C s e = some s1)
      ∧ (∃ more s1, exec N C (init C) (sched ++ more) = some s1 ∧ s1.collectorDone = true)
      ∧ s.outcomes = []
      ∧ (s.collectorDone = true → ∀ t, ∃ r, performLoadTest N C sched t = some r
          ∧ r.MinDuration = 9223372036854775807 ∧ r.MaxDuration = 0
          ∧ r.MinDuration > r.MaxDuration ∧ r.StatusDistribution = []
          ∧ r.SuccessRequests = 0) := by
  have hF := fits_of_nonpos hN hmax
  have hreach : Reachable N C s := ⟨sched, hexec⟩
  have hshape := shapeInv_reachable hreach
  have hcnt := counterInv_reachable hF hreach
  obtain ⟨hout, hdist, hmin, hmx, hsucc⟩ :=
    idle_state hN hcnt (aggInv_reachable hreach) (extremeInv_reachable hreach)
  refine ⟨?_, fun hrun => progress N C s hshape.len hrun, run_extends hF hexec, hout, ?_⟩
  · have h1 := exec_bounded hF sched _ _ (shapeInv_init C) (counterInv_init N C) hexec
    have h2 := measure_nonneg N C s
    have h3 : max N 0 = 0 := max_eq_right hN
    rw [measure_init, h3] at h1
    omega
  · intro hdone t
    obtain ⟨r, hr⟩ := buildReport_total N s t
    have hf := buildReport_fields hr
    refine ⟨r, by rw [performLoadTest_eq t hexec hdone, hr], ?_, ?_, ?_, ?_, ?_⟩
    · rw [hf.2.2.2.2.1, hmin]; rfl
    · rw [hf.2.2.2.2.2.1, hmx]
    · rw [hf.2.2.2.2.1, hmin, hf.2.2.2.2.2.1, hmx]; decide
    · rw [hf.2.2.2.1, hdist]
    · rw [hf.2.2.1, hsucc]

/-- C10, a concrete run: `totalRequests = -3` on two workers. -/
theorem seeds_leak_witness :
    exec (-3) 2 (init 2) idleRun = some idleEnd
      ∧ ∃ r, performLoadTest (-3) 2 idleRun 100 = some r
          ∧ r.MinDuration = 9223372036854775807 ∧ r.MaxDuration = 0
          ∧ r.MinDuration > r.MaxDuration ∧ r.StatusDistribution = []
          ∧ r.SuccessRequests = 0 :=
  have h := seeds_leak_when_nothing_runs (-3) 2 (by decide) (by decide)
    idleRun idleEnd (by decide)
  ⟨by decide, h.2.2.2.2 rfl 100⟩

/-- C6: at the return of any run the report is built without a division panic; its
`TotalRequests` is `requestCounter` clamped to `totalRequests`, the divisor is that
count, the dividend `totalDuration` is the int64 sum of the observed durations, and
`AvgDuration` is `totalDuration / TotalRequests` (truncated) when `TotalRequests > 0`
and 0 when it is not; when the counter cannot wrap the divisor is `totalRequests`, the
number of executed requests; and for `totalRequests = 0` with any int64 `concurrency`
every run takes at most `concurrency + 2` transitions, extends to a run that returns,
and returns with `TotalRequests = 0` and `AvgDuration = 0`. -/
theorem average_never_divides_by_zero (N : Int) (C : Nat)
    (hmax : (C : Int) ≤ maxInt64) (sched : List Event) (s : State)
    (hexec : exec N C (init C) sched = some s) :
    (s.collectorDone = true → ∀ t, ∃ r, performLoadTest N C sched t = some r
        ∧ r.TotalRequests = (if s.requestCounter > N then N else s.requestCounter)
        ∧ s.totalDuration = wrap64 (sumDur s.outcomes)
        ∧ (0 < r.TotalRequests →
            goDiv s.totalDuration r.TotalRequests = some r.AvgDuration
            ∧ r.AvgDuration = Int.tdiv s.totalDuration r.TotalRequests)
        ∧ (r.TotalRequests ≤ 0 → r.AvgDuration = 0)
        ∧ (0 ≤ N → 1 ≤ C → N + C ≤ maxInt64 →
            r.TotalRequests = N ∧ (s.outcomes.length : Int) = N
            ∧ (0 < N → r.AvgDuration = Int.tdiv (wrap64 (sumDur s.outcomes)) N)))
      ∧ (N = 0 → (sched.length : Int) ≤ C + 2
          ∧ (s.collectorDone = false → ∃ e s1, step N C s e = some s1)
          ∧ (∃ more s1, exec N C (init C) (sched ++ more) = some s1
              ∧ s1.collectorDone = true)
          ∧ (s.collectorDone = true → ∀ t, ∃ r, performLoadTest N C sched t = some r
              ∧ r.TotalRequests = 0 ∧ r.AvgDuration = 0)) := by
  have hreach : Reachable N C s := ⟨sched, hexec⟩
  have hshape := shapeInv_reachable hreach
  have hagg := aggInv_reachable hreach
  have hgen : s.collectorDone = true → ∀ t, ∃ r, performLoadTest N C sched t = some r
      ∧ r.TotalRequests = finalCount N s
      ∧ s.totalDuration = wrap64 (sumDur s.outcomes)
      ∧ (0 < r.TotalRequests →
          goDiv s.totalDuration r.TotalRequests = some r.AvgDuration
          ∧ r.AvgDuration = Int.tdiv s.totalDuration r.TotalRequests)
      ∧ (r.TotalRequests ≤ 0 → r.AvgDuration = 0) := by
    intro hdone t
    obtain ⟨r, hr⟩ := buildReport_total N s t
    have hf := buildReport_fields hr
    have hall := (returned_allDone hshape hdone).1
    have hpend := allDone_wsum pendingDur s hall
    simp only [pendingDur, mul_zero] at hpend
    have htot : s.totalDuration = wrap64 (sumDur s.outcomes) := by
      rw [hagg.total, hpend, sub_zero]
    refine ⟨r, by rw [performLoadTest_eq t hexec hdone, hr], hf.1, htot, ?_, ?_⟩
    · intro hpos
      rw [hf.1] at hpos ⊢
      have hrange := wrap64_range (sumDur s.outcomes - wsum pendingDur s.workers)
      rw [← hagg.total] at hrange
      have hfit := tdiv_fits s.totalDuration (finalCount N s) hrange.1 hrange.2 hpos
      have hne : ¬ finalCount N s = 0 := by omega
      rw [hf.2.2.2.2.2.2.1 hpos, hfit]
      simp [goDiv, hne, hfit]
    · intro hle
      rw [hf.1] at hle
      exact hf.2.2.2.2.2.2.2 (by omega)
  refine ⟨fun hdone t => ?_, ?_⟩
  · obtain ⟨r, h1, h2, htot, h3, h4⟩ := hgen hdone t
    refine ⟨r, h1, h2, htot, h3, h4, ?_⟩
    intro hN hC hfit
    have hF := fits_of_nonneg hN hfit
    have hcnt := counterInv_reachable hF hreach
    obtain ⟨hc, hlen, _⟩ := returned_counts hC hshape hcnt hdone
    have hmaxN : max N 0 = N := max_eq_left hN
    rw [hmaxN] at hc hlen
    have hC1 : (1 : Int) ≤ C := by exact_mod_cast hC
    have hTR : r.TotalRequests = N := by
      rw [h2]
      simp only [finalCount]
      split_ifs <;> omega
    refine ⟨hTR, hlen, ?_⟩
    intro hpos
    have := (h3 (by rw [hTR]; exact hpos)).2
    rw [hTR, htot] at this
    exact this
  · intro hN
    have hF : Fits N C := fits_of_nonpos (le_of_eq hN) hmax
    have hcnt := counterInv_reachable hF hreach
    refine ⟨?_, fun hrun => progress N C s hshape.len hrun, run_extends hF hexec, ?_⟩
    · have h1 := exec_bounded hF sched _ _ (shapeInv_init C) (counterInv_init N C) hexec
      have h2 := measure_nonneg N C s
      have h3 : max N 0 = 0 := max_eq_right (le_of_eq hN)
      rw [measure_init, h3] at h1
      omega
    · intro hdone t
      obtain ⟨r, h1, h2, _, _, h4⟩ := hgen hdone t
      have hzero : r.TotalRequests = 0 := by
        have hnn := hcnt.nonneg
        rw [h2]
        simp only [finalCount]
        split_ifs <;> omega
      exact ⟨r, h1, hzero, h4 (le_of_eq hzero)⟩

/-- C6, two concrete runs: two requests of 5 ns and 7 ns on one worker, where the
division runs and gives `12 / 2 = 6`, and `totalRequests = 0` on one worker, where it
does not run. -/
theorem average_never_divides_by_zero_witness :
    (exec 2 1 (init 1) twoRequestRun = some twoRequestEnd
      ∧ ∃ r, performLoadTest 2 1 twoRequestRun 100 = some r
          ∧ r.TotalRequests = 2
          ∧ goDiv twoRequestEnd.totalDuration 2 = some r.AvgDuration
          ∧ r.AvgDuration = Int.tdiv 12 2 ∧ r.AvgDuration = 6)
      ∧ (exec 0 1 (init 1) emptyRun = some emptyEnd
        ∧ ∃ r, performLoadTest 0 1 emptyRun 100 = some r
            ∧ r.TotalRequests = 0 ∧ r.AvgDuration = 0) := by
  have h2 := average_never_divides_by_zero 2 1 (by decide) twoRequestRun twoRequestEnd
    (by decide)
  have h0 := average_never_divides_by_zero 0 1 (by decide) emptyRun emptyEnd (by decide)
  refine ⟨⟨by decide, ?_⟩, ⟨by decide, (h0.2 rfl).2.2.2 rfl 100⟩⟩
  obtain ⟨r, hr, hTR, _, hdiv, _, _⟩ := h2.1 rfl 100
  have hTR2 : r.TotalRequests = 2 := by
    rw [hTR]
    decide
  have hd := hdiv (by rw [hTR2]; decide)
  rw [hTR2] at hd
  have havg : r.AvgDuration = Int.tdiv 12 2 := hd.2
  exact ⟨r, hr, hTR2, hd.1, havg, by rw [havg]; decide⟩

/-- The guard of line 34 rejects exactly an empty URL, a zero request count and a zero
concurrency. -/
theorem main_usage_iff (url : String) (requests concurrency : Int) :
    main url requests concurrency = MainOutcome.usageError
      ↔ url = "" ∨ requests = 0 ∨ concurrency = 0 := by
  unfold main
  split_ifs with h
  · simp [h]
  · simp [h]

/-- C8 fails on the code: with `--requests -1` (or `--concurrency -1`) `main` does not
print the usage error, it calls `performLoadTest`; with `totalRequests = -1` on one
worker the call returns a report whose `TotalRequests` is `-1`. -/
theorem main_runs_on_negative_flags :
    main "http://localhost" (-1) 1 = MainOutcome.loadTest "http://localhost" (-1) 1
      ∧ main "http://localhost" 5 (-1) = MainOutcome.loadTest "http://localhost" 5 (-1)
      ∧ ∃ r, performLoadTest (-1) 1 emptyRun 100 = some r ∧ r.TotalRequests = -1 := by
  exact ⟨by decide, by decide,
    ⟨⟨-1, 100, 0, [], 9223372036854775807, 0, 0⟩, by decide, by decide⟩⟩

/-- C7: in every state of every run, a worker whose GET is in flight proceeds whatever
the GET returns, with status 0 on a transport error and the response status otherwise,
and records exactly that outcome; accepted tickets and outcomes correspond one to one
(an accepted ticket without outcome is a GET in flight); every outcome is held by its
worker, buffered in the channel, or counted in `StatusDistribution` under its status;
at the return every accepted ticket has its outcome and every outcome is counted. -/
theorem every_ticket_yields_one_outcome (N : Int) (C : Nat) (sched : List Event)
    (s : State) (hexec : exec N C (init C) sched = some s) :
    (∀ (i : Nat), s.workers[i]? = some Pc.get →
        ∀ (resp : Option Int) (dur : Int), minInt64 ≤ dur → dur ≤ maxInt64 →
          ∃ s1, step N C s (Event.respond i resp dur) = some s1
            ∧ s1.workers[i]? = some (Pc.send (statusOf resp) dur)
            ∧ s1.outcomes = s.outcomes ++ [⟨statusOf resp, dur⟩])
      ∧ statusOf none = 0 ∧ (∀ code, statusOf (some code) = code)
      ∧ ((accepted N s).length : Int) = s.outcomes.length + wsum isGet s.workers
      ∧ (∀ k, mapGet s.statusDistribution k
          = wrap64 (countStatus k s.outcomes - countStatus k s.resultChan
              - wsum (isSendOf k) s.workers))
      ∧ (s.collectorDone = true →
          (accepted N s).length = s.outcomes.length
          ∧ (∀ k, mapGet s.statusDistribution k = wrap64 (countStatus k s.outcomes))
          ∧ ((s.outcomes.length : Int) ≤ maxInt64 →
              ∀ k, mapGet s.statusDistribution k = countStatus k s.outcomes)) := by
  have hreach : Reachable N C s := ⟨sched, hexec⟩
  have hshape := shapeInv_reachable hreach
  have hagg := aggInv_reachable hreach
  have htick := ticket_outcome_reachable hreach
  refine ⟨?_, rfl, fun _ => rfl, htick, hagg.perStatus, ?_⟩
  · intro i hpc resp dur h1 h2
    refine ⟨{ s with workers := s.workers.set i (Pc.send (statusOf resp) dur),
                     outcomes := s.outcomes ++ [⟨statusOf resp, dur⟩] },
      by simp only [step, hpc, h1, h2, and_self, if_true], ?_, rfl⟩
    exact get_set_self _ hpc
  · intro hdone
    obtain ⟨hall, hchan⟩ := returned_allDone hshape hdone
    have hg := allDone_wsum isGet s hall
    simp only [isGet, mul_zero] at hg
    have hper : ∀ k, mapGet s.statusDistribution k = wrap64 (countStatus k s.outcomes) := by
      intro k
      have hk := hagg.perStatus k
      have hs := allDone_wsum (isSendOf k) s hall
      simp only [isSendOf, mul_zero] at hs
      rw [hs, hchan] at hk
      simpa [countStatus] using hk
    refine ⟨by omega, hper, ?_⟩
    intro hlen k
    rw [hper k]
    have hb := countStatus_bounds k s.outcomes
    exact wrap64_of_fits _ (by unfold minInt64; omega) (by omega)

/-- C7, a concrete run: the second GET of `twoRequestRun` fails and is counted under 0. -/
theorem every_ticket_yields_one_outcome_witness :
    exec 2 1 (init 1) twoRequestRun = some twoRequestEnd
      ∧ (accepted 2 twoRequestEnd).length = twoRequestEnd.outcomes.length
      ∧ mapGet twoRequestEnd.statusDistribution 0 = 1
      ∧ ∀ k, mapGet twoRequestEnd.statusDistribution k
          = countStatus k twoRequestEnd.outcomes :=
  have h := every_ticket_yields_one_outcome 2 1 twoRequestRun twoRequestEnd (by decide)
  ⟨by decide, (h.2.2.2.2.2 rfl).1, by decide, (h.2.2.2.2.2 rfl).2.2 (by decide)⟩

/-- C3 (amended): in every run that returns with `TotalRequests > 0`, non-negative
durations, a counter that cannot wrap (`totalRequests + concurrency ≤ 2^63 - 1`) and a
sum of durations that fits in an int64, `MinDuration ≤ AvgDuration ≤ MaxDuration`,
where `AvgDuration` is the sum of the durations divided (truncated) by the number of
executed requests, which is `TotalRequests`. -/
theorem average_between_extremes (N : Int) (C : Nat) (hC : 1 ≤ C) (hfit : Fits N C)
    (sched : List Event) (t : Int) (r : Report) (s : State)
    (hexec : exec N C (init C) sched = some s)
    (hret : performLoadTest N C sched t = some r) (hpos : 0 < r.TotalRequests)
    (hnn : ∀ d ∈ durations s.outcomes, 0 ≤ d) (hsum : sumDur s.outcomes ≤ maxInt64) :
    r.MinDuration ≤ r.AvgDuration ∧ r.AvgDuration ≤ r.MaxDuration
      ∧ r.AvgDuration = Int.tdiv (sumDur s.outcomes) r.TotalRequests
      ∧ r.TotalRequests = s.outcomes.length := by
  obtain ⟨s1, hs1, hdone, hrep⟩ := performLoadTest_some hret
  have hs : s1 = s := by
    rw [hexec] at hs1
    exact (Option.some.inj hs1).symm
  subst hs
  have hreach : Reachable N C s1 := ⟨sched, hexec⟩
  have hshape := shapeInv_reachable hreach
  have hcnt := counterInv_reachable hfit hreach
  have hagg := aggInv_reachable hreach
  have hall := (returned_allDone hshape hdone).1
  obtain ⟨hc, hlen, _⟩ := returned_counts hC hshape hcnt hdone
  have hf := buildReport_fields hrep
  have hC1 : (1 : Int) ≤ C := by exact_mod_cast hC
  have hfc : finalCount N s1 = N := by
    simp only [finalCount]
    split_ifs <;> omega
  rw [hf.1, hfc] at hpos
  have hlenN : (s1.outcomes.length : Int) = N := by omega
  have hne : s1.outcomes ≠ [] := by
    intro h0
    rw [h0] at hlenN
    simp at hlenN
    omega
  obtain ⟨_, hlow, _, hhigh⟩ :=
    allDone_extremes hall hagg (extremeInv_reachable hreach) hne hnn
  have hsum0 : 0 ≤ sumDur s1.outcomes := by
    rw [sumDur_eq]
    exact List.sum_nonneg hnn
  have hpend := allDone_wsum pendingDur s1 hall
  simp only [pendingDur, mul_zero] at hpend
  have htot : s1.totalDuration = sumDur s1.outcomes := by
    rw [hagg.total, hpend, sub_zero]
    exact wrap64_of_fits _ (by unfold minInt64; omega) hsum
  have h1 := sum_ge_of_forall_ge s1.minDuration _ hlow
  have h2 := sum_le_of_forall_le s1.maxDuration _ hhigh
  rw [durations_length, hlenN, ← sumDur_eq] at h1 h2
  have havg : r.AvgDuration = Int.tdiv (sumDur s1.outcomes) N := by
    rw [hf.2.2.2.2.2.2.1 (by rw [hfc]; exact hpos), hfc, htot]
    exact tdiv_fits _ _ (by unfold minInt64; omega) hsum hpos
  have hdiv : Int.tdiv (sumDur s1.outcomes) N = sumDur s1.outcomes / N :=
    Int.tdiv_eq_ediv hsum0 (le_of_lt hpos)
  refine ⟨?_, ?_, ?_, ?_⟩
  · rw [hf.2.2.2.2.1, havg, hdiv]
    exact Int.le_ediv_of_mul_le hpos (by linarith)
  · rw [hf.2.2.2.2.2.1, havg, hdiv]
    exact Int.ediv_le_of_le_mul hpos (by linarith)
  · rw [havg, hf.1, hfc]
  · rw [hf.1, hfc, hlenN]

/-- C3, a concrete run: durations 5 and 7 give an average of 6. -/
theorem average_between_extremes_witness :
    exec 2 1 (init 1) twoRequestRun = some twoRequestEnd
      ∧ performLoadTest 2 1 twoRequestRun 100 = some twoRequestReport
      ∧ twoRequestReport.MinDuration ≤ twoRequestReport.AvgDuration
      ∧ twoRequestReport.AvgDuration ≤ twoRequestReport.MaxDuration
      ∧ twoRequestReport.AvgDuration
          = Int.tdiv (sumDur twoRequestEnd.outcomes) twoRequestReport.TotalRequests
      ∧ twoRequestReport.TotalRequests = twoRequestEnd.outcomes.length :=
  ⟨by decide, by decide,
    average_between_extremes 2 1 (by decide) ⟨by decide, by decide⟩ twoRequestRun 100
      twoRequestReport twoRequestEnd (by decide) (by decide) (by decide) (by decide)
      (by decide)⟩

/-- C3 as stated fails: two requests of `2^62` ns each on one worker are non-negative
durations, their int64 sum wraps to `-2^63`, and the report has
`AvgDuration = -2^62`, below `MinDuration = 2^62`.  The same happens with durations
the 30 s client timeout allows: after 307445735 requests on one worker that each fail
after exactly 30 s the sum has wrapped and the report has `MinDuration = MaxDuration
= 30 s` and a negative `AvgDuration`. -/
theorem average_between_extremes_counterexample :
    (exec 2 1 (init 1) overflowRun = some overflowEnd
      ∧ performLoadTest 2 1 overflowRun 100 = some overflowReport
      ∧ 0 < overflowReport.TotalRequests
      ∧ (∀ d ∈ durations overflowEnd.outcomes, 0 ≤ d)
      ∧ overflowReport.AvgDuration < overflowReport.MinDuration)
    ∧ ∃ sched s r, exec 307445735 1 (init 1) sched = some s
        ∧ performLoadTest 307445735 1 sched 0 = some r
        ∧ (∀ x ∈ s.outcomes, x = ⟨0, 30000000000⟩)
        ∧ r.TotalRequests = 307445735
        ∧ r.MinDuration = 30000000000 ∧ r.MaxDuration = 30000000000
        ∧ r.AvgDuration = -29999999914 := by
  refine ⟨⟨by decide, by decide, by decide, by decide, by decide⟩, ?_⟩
  obtain ⟨a, s1, ha, hw, hch, hr, hcl, hc, _, hout, _, htot, hmn, hmx⟩ :=
    solo_many 307445735 1 0 none 30000000000 (by decide) (by decide) 307445735 (init 1)
      (by simp [init]) rfl rfl (by decide) (by decide) (by decide)
      (fun j hj => by
        simp only [init, wrap64]
        omega)
  have hw1 : s1.workers = [Pc.claim] := by rw [hw]; rfl
  have hc1 : s1.requestCounter = 307445735 := by rw [hc]; decide
  have hcl1 : s1.closed = false := by rw [hcl]; rfl
  have htot1 : s1.totalDuration = -9223372023709551616 := by rw [htot]; decide
  have hmn1 : s1.minDuration = 30000000000 := by rw [hmn]; decide
  have hmx1 : s1.maxDuration = 30000000000 := by rw [hmx]; decide
  have e1 : wrap64 307445736 = 307445736 := by decide
  have he : exec 307445735 1 s1 [Event.work 0, Event.close, Event.collectorExit]
      = some { s1 with requestCounter := 307445736,
                       claimLog := s1.claimLog ++ [307445736],
                       workers := [Pc.done],
                       closed := true,
                       collectorDone := true } := by
    simp [exec, step, stepWorker, hw1, hc1, hcl1, hr, hch, e1]
  have hrun := exec_trans ha he
  obtain ⟨r, hrep⟩ := buildReport_total 307445735
    { s1 with requestCounter := 307445736,
              claimLog := s1.claimLog ++ [307445736],
              workers := [Pc.done],
              closed := true,
              collectorDone := true } 0
  have hf := buildReport_fields hrep
  have hfc : finalCount 307445735
      { s1 with requestCounter := 307445736,
                claimLog := s1.claimLog ++ [307445736],
                workers := [Pc.done],
                closed := true,
                collectorDone := true } = 307445735 := by
    show (if (307445736 : Int) > 307445735 then (307445735 : Int) else 307445736) = 307445735
    decide
  refine ⟨a ++ [Event.work 0, Event.close, Event.collectorExit], _, r, hrun,
    by rw [performLoadTest_eq 0 hrun rfl, hrep], ?_, ?_, ?_, ?_, ?_⟩
  · intro x hx
    have hx1 : x ∈ s1.outcomes := hx
    rw [hout] at hx1
    rcases List.mem_append.mp hx1 with h | h
    · simp [init] at h
    · exact List.eq_of_mem_replicate h
  · rw [hf.1, hfc]
  · rw [hf.2.2.2.2.1]
    exact hmn1
  · rw [hf.2.2.2.2.2.1]
    exact hmx1
  · rw [hf.2.2.2.2.2.2.1 (by rw [hfc]; decide), hfc]
    show wrap64 (Int.tdiv s1.totalDuration 307445735) = -29999999914
    rw [htot1]
    decide

/-- C5 (amended): in every run that returns with `totalRequests = N ≥ 0`,
`concurrency ≥ 1` and a counter that cannot wrap (`N + concurrency ≤ 2^63 - 1`),
`SuccessRequests` equals `StatusDistribution[200]`, which is the number of executed
requests whose outcome had status 200, and `SuccessRequests ≤ TotalRequests`. -/
theorem success_counts_status_200 (N : Int) (C : Nat) (hN : 0 ≤ N) (hC : 1 ≤ C)
    (hfit : N + C ≤ maxInt64) (sched : List Event) (t : Int) (r : Report) (s : State)
    (hexec : exec N C (init C) sched = some s)
    (hret : performLoadTest N C sched t = some r) :
    r.SuccessRequests = mapGet r.StatusDistribution 200
      ∧ r.SuccessRequests = countStatus 200 s.outcomes
      ∧ r.SuccessRequests ≤ r.TotalRequests := by
  obtain ⟨s1, hs1, hdone, hrep⟩ := performLoadTest_some hret
  have hs : s1 = s := by
    rw [hexec] at hs1
    exact (Option.some.inj hs1).symm
  subst hs
  have hF := fits_of_nonneg hN hfit
  have hreach : Reachable N C s1 := ⟨sched, hexec⟩
  have hshape := shapeInv_reachable hreach
  have hcnt := counterInv_reachable hF hreach
  have hagg := aggInv_reachable hreach
  obtain ⟨hall, hchan⟩ := returned_allDone hshape hdone
  obtain ⟨hc, hlen, hsum⟩ := returned_counts hC hshape hcnt hdone
  have hmax : max N 0 = N := max_eq_left hN
  rw [hmax] at hc hlen hsum
  have hf := buildReport_fields hrep
  have hC1 : (1 : Int) ≤ C := by exact_mod_cast hC
  have hfc : finalCount N s1 = N := by
    simp only [finalCount]
    split_ifs <;> omega
  have hk := hagg.perStatus 200
  have hsend := allDone_wsum (isSendOf 200) s1 hall
  simp only [isSendOf, mul_zero] at hsend
  rw [hsend, hchan] at hk
  have hb := countStatus_bounds 200 s1.outcomes
  have hk2 : mapGet s1.statusDistribution 200 = countStatus 200 s1.outcomes := by
    rw [hk]
    simp only [countStatus, List.map_nil, List.sum_nil, sub_zero]
    simp only [countStatus] at hb
    exact wrap64_of_fits _ (by unfold minInt64; omega) (by omega)
  refine ⟨?_, ?_, ?_⟩
  · rw [hf.2.2.1, hf.2.2.2.1, hagg.success]
  · rw [hf.2.2.1, hagg.success, hk2]
  · rw [hf.2.2.1, hf.1, hfc, hagg.success]
    have := mapGet_le_mapSum s1.statusDistribution 200 hcnt.counts
    omega

/-- C5, the scenario of the specification: outcomes 200, 200, 200, 500, 500 on one
worker give `SuccessRequests = 3`. -/
theorem success_counts_status_200_witness :
    exec 5 1 (init 1) fiveRequestRun = some fiveRequestEnd
      ∧ performLoadTest 5 1 fiveRequestRun 100 = some fiveRequestReport
      ∧ fiveRequestReport.SuccessRequests = 3
      ∧ fiveRequestReport.StatusDistribution = [(200, 3), (500, 2)]
      ∧ fiveRequestReport.SuccessRequests = mapGet fiveRequestReport.StatusDistribution 200
      ∧ fiveRequestReport.SuccessRequests = countStatus 200 fiveRequestEnd.outcomes
      ∧ fiveRequestReport.SuccessRequests ≤ fiveRequestReport.TotalRequests :=
  ⟨by decide, by decide, rfl, rfl,
    success_counts_status_200 5 1 (by decide) (by decide) (by decide) fiveRequestRun 100
      fiveRequestReport fiveRequestEnd (by decide) (by decide)⟩

/-- C5 as stated fails at `totalRequests = 2^63 - 2`, `concurrency = 2`: worker 0
executes `2^63 - 2` requests answered 500 and is rejected with `2^63 - 1`; the next
claim wraps the counter, worker 1 executes `2^63 - 1` requests answered 200 and `2^63`
requests answered 500 before it is rejected; the run returns with
`SuccessRequests = 2^63 - 1`, above `TotalRequests = 2^63 - 2`. -/
theorem success_exceeds_total_counterexample :
    ∃ sched r, performLoadTest (maxInt64 - 1) 2 sched 0 = some r
      ∧ r.TotalRequests = 9223372036854775806
      ∧ r.SuccessRequests = 9223372036854775807
      ∧ r.SuccessRequests > r.TotalRequests := by
  -- worker 0 executes the requests 1 .. 2^63 - 2
  obtain ⟨a, s1, ha, hw1, hch1, hr1, hcl1, hc1, _, _, hs1, ht1, _⟩ :=
    solo_many (maxInt64 - 1) 2 0 (some 500) 0 (by decide) (by decide) 9223372036854775806
      (init 2) (by simp [init]) rfl rfl (by decide) (by decide) (by decide)
      (fun j hj => by
        simp only [init, wrap64, maxInt64]
        omega)
  have hw1a : s1.workers = [Pc.claim, Pc.claim] := by rw [hw1]; rfl
  have hc1a : s1.requestCounter = 9223372036854775806 := by rw [hc1]; decide
  have hs1a : s1.successCount = 0 := by rw [hs1]; decide
  have hcl1a : s1.closed = false := by rw [hcl1]; rfl
  -- worker 0 is rejected with 2^63 - 1
  have e1 : wrap64 9223372036854775807 = maxInt64 := by decide
  have e3 : maxInt64 - 1 < maxInt64 := by decide
  have hb : exec (maxInt64 - 1) 2 s1 [Event.work 0]
      = some { s1 with requestCounter := maxInt64,
                       claimLog := s1.claimLog ++ [maxInt64],
                       workers := [Pc.done, Pc.claim] } := by
    simp [exec, step, stepWorker, hw1a, hc1a, e1, e3]
  -- worker 1 executes 2^63 - 1 requests answered 200 across the wrap
  obtain ⟨c, s3, hc, hw3, hch3, hr3, hcl3, hc3, _, _, hs3, ht3, _⟩ :=
    solo_many (maxInt64 - 1) 2 1 (some 200) 0 (by decide) (by decide) 9223372036854775807
      { s1 with requestCounter := maxInt64,
                claimLog := s1.claimLog ++ [maxInt64],
                workers := [Pc.done, Pc.claim] }
      (by simp) hch1 hr1 (show wrap64 maxInt64 = maxInt64 by decide)
      (show wrap64 s1.successCount = s1.successCount by rw [hs1a]; decide)
      (show wrap64 s1.totalDuration = s1.totalDuration by rw [ht1]; exact wrap64_idem _)
      (fun j hj => by
        simp only [wrap64, maxInt64]
        omega)
  have hw3a : s3.workers = [Pc.done, Pc.claim] := hw3
  have hc3a : s3.requestCounter = -2 := by
    rw [hc3]
    show wrap64 (maxInt64 + ((9223372036854775807 : Nat) : Int)) = -2
    decide
  have hs3a : s3.successCount = 9223372036854775807 := by
    rw [hs3]
    show (if statusOf (some 200) = 200
      then wrap64 (s1.successCount + ((9223372036854775807 : Nat) : Int))
      else s1.successCount) = 9223372036854775807
    rw [hs1a]
    decide
  have hcl3a : s3.closed = false := by rw [hcl3]; exact hcl1a
  -- worker 1 executes 2^63 further requests answered 500
  obtain ⟨d, s4, hd, hw4, hch4, hr4, hcl4, hc4, _, _, hs4, _⟩ :=
    solo_many (maxInt64 - 1) 2 1 (some 500) 0 (by decide) (by decide) 9223372036854775808 s3
      (by rw [hw3a]; rfl) hch3 hr3 (by rw [hc3a]; decide) (by rw [hs3a]; decide)
      (by rw [ht3]; exact wrap64_idem _)
      (fun j hj => by
        rw [hc3a]
        simp only [wrap64, maxInt64]
        omega)
  have hw4a : s4.workers = [Pc.done, Pc.claim] := by rw [hw4, hw3a]
  have hc4a : s4.requestCounter = 9223372036854775806 := by rw [hc4, hc3a]; decide
  have hs4a : s4.successCount = 9223372036854775807 := by
    rw [hs4, hs3a]
    decide
  have hcl4a : s4.closed = false := by rw [hcl4]; exact hcl3a
  -- worker 1 is rejected, the channel is closed, the collector leaves
  have he : exec (maxInt64 - 1) 2 s4 [Event.work 1, Event.close, Event.collectorExit]
      = some { s4 with requestCounter := maxInt64,
                       claimLog := s4.claimLog ++ [maxInt64],
                       workers := [Pc.done, Pc.done],
                       closed := true,
                       collectorDone := true } := by
    simp [exec, step, stepWorker, hw4a, hc4a, hcl4a, hr4, hch4, e1, e3]
  have hrun := exec_trans (exec_trans (exec_trans (exec_trans ha hb) hc) hd) he
  obtain ⟨r, hr⟩ := buildReport_total (maxInt64 - 1)
    { s4 with requestCounter := maxInt64,
              claimLog := s4.claimLog ++ [maxInt64],
              workers := [Pc.done, Pc.done],
              closed := true,
              collectorDone := true } 0
  have hf := buildReport_fields hr
  have htot : r.TotalRequests = 9223372036854775806 := by
    rw [hf.1]
    show (if maxInt64 > maxInt64 - 1 then maxInt64 - 1 else maxInt64) = 9223372036854775806
    decide
  have hsuc : r.SuccessRequests = 9223372036854775807 := by
    rw [hf.2.2.1]
    exact hs4a
  refine ⟨a ++ [Event.work 0] ++ c ++ d ++ [Event.work 1, Event.close, Event.collectorExit],
    r, ?_, htot, hsuc, ?_⟩
  · rw [performLoadTest_eq 0 hrun rfl, hr]
  · rw [htot, hsuc]
    decide

end LoadTest
